import Mathlib

/-!
# merkletree: a verification development over `tree.go`

The Go package builds a binary hash tree over a list of data blocks
(`NewTree`), produces inclusion proofs (`GetProofs`) and replays them
(`VerifyProofs`).  This file embeds those functions as Lean definitions and
proves properties of them.

Modelling conventions.

* A byte is a `Fin 256`, `Data` (`[]byte`) is a list of bytes and `Hash`
  (`[32]byte`) is a list of exactly 32 bytes.
* `crypto/sha256.Sum256` is library code: it is the field `sum256` of `Env`.
  Every result holds for every function of that type.
* Go's `int` is modelled by `Int`; the lengths involved are far below the
  64-bit range, so no wrap-around is modelled.
* `math.Ceil(math.Log2(float64(x)))` is modelled by the exact integer ceiling
  logarithm `ceilLog2 x` for `x ≥ 1`.  For `x = 0` the Go expression is the
  conversion of `-Inf` to `int`, whose value is implementation dependent; it
  is the field `negInfToInt` of `Env`.
* A run-time fault (Go panic) is an `Except.error` carrying a `Panic`.
* Pointers are modelled by the values they point to; the tree is never
  mutated after construction, so sharing is unobservable.
-/

namespace Merkletree

set_option maxRecDepth 100000

/-! ## Data model -/

abbrev Byte := Fin 256

/-- Go: `type Data []byte`. -/
abbrev Data := List Byte

/-- Go: `type Hash [32]byte`. -/
abbrev Hash := { bs : List Byte // bs.length = 32 }

/-- The parts of the Go runtime and libraries the package relies on. -/
structure Env where
  /-- The function `crypto/sha256.Sum256`. -/
  sum256 : Data → Hash
  /-- The value of `int(math.Inf(-1))`, which Go leaves implementation dependent. -/
  negInfToInt : Int

/-- Run-time faults of the Go program. -/
inductive Panic where
  | makeSliceLenOutOfRange
  | indexOutOfRange
  deriving DecidableEq, Repr

/-- Go: `func HashData(data Data) Hash`. -/
def HashData (E : Env) (data : Data) : Hash :=
  E.sum256 data

/-- Go: `type Node interface`, implemented by `*Leaf` and `*Branch`. -/
inductive Node where
  | Leaf (hash : Hash) (data : Data)
  | Branch (hash : Hash) (left : Node) (right : Node)
  deriving DecidableEq, Repr

/-- Go: the methods `(*Leaf).Hash` and `(*Branch).Hash`, which return the cached field. -/
def Node.Hash : Node → Hash
  | .Leaf hash _ => hash
  | .Branch hash _ _ => hash

/-- Go: `func NewLeaf(data Data) *Leaf`. -/
def NewLeaf (E : Env) (data : Data) : Node :=
  Node.Leaf (HashData E data) data

/-- Go: `func MergeHash(leftHash Hash, rightHash Hash) Hash`; the two `range`
loops append the bytes one at a time to `combination`. -/
def MergeHash (E : Env) (leftHash rightHash : Hash) : Hash :=
  let combination : List Byte := []
  let combination := leftHash.val.foldl (fun c hash => c ++ [hash]) combination
  let combination := rightHash.val.foldl (fun c hash => c ++ [hash]) combination
  HashData E combination

/-- Go: `func NewBranch(leftNode Node, rightNode Node) *Branch`. -/
def NewBranch (E : Env) (leftNode rightNode : Node) : Node :=
  Node.Branch (MergeHash E leftNode.Hash rightNode.Hash) leftNode rightNode

/-- Go: `type MerkleTree struct { root Node; rows [][]Node }`. -/
structure MerkleTree where
  root : Node
  rows : List (List Node)
  deriving DecidableEq, Repr

/-- Go: `type Direction string`. -/
abbrev Direction := String

/-- Go: `Left Direction = "left"`. -/
def Left : Direction := "left"

/-- Go: `Right Direction = "right"`. -/
def Right : Direction := "right"

/-- Go: `type Proof struct { direction Direction; hash Hash }`. -/
structure Proof where
  direction : Direction
  hash : Hash
  deriving DecidableEq, Repr

/-! ## Indexing with Go's bounds check -/

/-- Go: the index expression `xs[i]`, which faults when `i` is out of range. -/
def elemAt {α : Type} (xs : List α) (i : Int) : Except Panic α :=
  if i < 0 then .error .indexOutOfRange
  else
    match xs[i.toNat]? with
    | some x => .ok x
    | none => .error .indexOutOfRange

/-- Go: the statement `rows[i] = append(rows[i], x)`. -/
def appendAt (rows : List (List Node)) (i : Int) (x : Node) :
    Except Panic (List (List Node)) := do
  let row ← elemAt rows i
  pure (rows.set i.toNat (row ++ [x]))

/-! ## Tree construction -/

/-- Least `d` with `m ≤ 2 ^ d`, searched upwards from `d` in at most `fuel` steps. -/
def ceilLog2From (m : Nat) : Nat → Nat → Nat
  | 0, d => d
  | fuel + 1, d => if m ≤ 2 ^ d then d else ceilLog2From m fuel (d + 1)

/-- The exact integer ceiling of the base-2 logarithm (`0` for `m ≤ 1`). -/
def ceilLog2 (m : Nat) : Nat :=
  ceilLog2From m m 0

/-- Go: `depth := int(math.Ceil(math.Log2(float64(dataLen+dataLen%2))) + 1)`. -/
def depthOf (E : Env) (dataLen : Nat) : Int :=
  if dataLen + dataLen % 2 = 0 then E.negInfToInt
  else (ceilLog2 (dataLen + dataLen % 2) : Int) + 1

/-- Go: `for _, data := range leafsData { rows[0] = append(rows[0], NewLeaf(data)) }`. -/
def leafLoop (E : Env) : List Data → List (List Node) → Except Panic (List (List Node))
  | [], rows => pure rows
  | data :: rest, rows => do
    let rows ← appendAt rows 0 (NewLeaf E data)
    leafLoop E rest rows

/-- Go: the inner loop `for j := 0; j < len(prevNodes); j = j + 2 { ... }` of
`NewTree`; the list argument is the part of `prevNodes` from index `j` on. -/
def pairLoop (E : Env) (i : Int) : List Node → List (List Node) →
    Except Panic (List (List Node))
  | [], rows => pure rows
  | [left], rows => appendAt rows i (NewBranch E left left)
  | left :: right :: rest, rows => do
    let rows ← appendAt rows i (NewBranch E left right)
    pairLoop E i rest rows

/-- Go: the outer loop `for i := 1; i < depth; i++ { ... }` of `NewTree`; the
first argument counts the iterations still to run, `depth - i`. -/
def rowLoop (E : Env) : Nat → Int → List (List Node) → Except Panic (List (List Node))
  | 0, _, rows => pure rows
  | k + 1, i, rows => do
    let prevNodes ← elemAt rows (i - 1)
    let rows ← pairLoop E i prevNodes rows
    rowLoop E k (i + 1) rows

/-- Go: `make([][]Node, depth)`, which faults on a negative length and
otherwise yields `depth` empty rows. -/
def makeRows (depth : Int) : Except Panic (List (List Node)) :=
  if depth < 0 then .error .makeSliceLenOutOfRange
  else .ok (List.replicate depth.toNat [])

/-- Go: `if (len(leafsData)-1)%2 == 0 { rows[0] = append(rows[0], rows[0][len(leafsData)-1]) }`;
Go's `%` truncates towards zero. -/
def duplicateOddLeaf (dataLen : Int) (rows : List (List Node)) :
    Except Panic (List (List Node)) :=
  if Int.tmod (dataLen - 1) 2 = 0 then do
    let row0 ← elemAt rows 0
    let last ← elemAt row0 (dataLen - 1)
    appendAt rows 0 last
  else pure rows

/-- Go: `func NewTree(leafsData []Data) *MerkleTree`. -/
def NewTree (E : Env) (leafsData : List Data) : Except Panic MerkleTree := do
  let dataLen : Int := leafsData.length
  let depth := depthOf E leafsData.length
  let rows ← makeRows depth
  let rows ← leafLoop E leafsData rows
  let rows ← duplicateOddLeaf dataLen rows
  let rows ← rowLoop E (depth - 1).toNat 1 rows
  let lastRow ← elemAt rows (depth - 1)
  let root ← elemAt lastRow 0
  pure { root := root, rows := rows }

/-! ## Proof generation and verification -/

/-- Go: the loop of `getLeafIndex`; the list is `tree.rows[0]` from index `i` on. -/
def scanLeaf (leafHash : Hash) : List Node → Int → Int
  | [], _ => -1
  | node :: rest, i => if node.Hash = leafHash then i else scanLeaf leafHash rest (i + 1)

/-- Go: `func (tree MerkleTree) getLeafIndex(leafHash Hash) int`. -/
def getLeafIndex (tree : MerkleTree) (leafHash : Hash) : Except Panic Int := do
  let row0 ← elemAt tree.rows 0
  pure (scanLeaf leafHash row0 0)

/-- Go: the loop `for i := 0; i < len(tree.rows)-1; i++ { ... }` of `GetProofs`;
the first argument counts the iterations still to run.  The update
`index = int(float64(index / 2))` is the integer quotient. -/
def proofLoop (tree : MerkleTree) : Nat → Int → Int → List Proof → Except Panic (List Proof)
  | 0, _, _, proofs => pure proofs
  | k + 1, i, index, proofs => do
    let row ← elemAt tree.rows i
    if Int.tmod index 2 = 1 then
      let node ← elemAt row (index - 1)
      proofLoop tree k (i + 1) (Int.tdiv index 2) (proofs ++ [{ direction := Left, hash := node.Hash }])
    else
      let node ← elemAt row (index + 1)
      proofLoop tree k (i + 1) (Int.tdiv index 2) (proofs ++ [{ direction := Right, hash := node.Hash }])

/-- Go: `func (tree MerkleTree) GetProofs(leafHash Hash) ([]*Proof, error)`.
The result pair is the slice (`none` for `nil`) and the error (`none` for
`nil`, otherwise its message). -/
def GetProofs (tree : MerkleTree) (leafHash : Hash) :
    Except Panic (Option (List Proof) × Option String) := do
  let index ← getLeafIndex tree leafHash
  if index = -1 then
    pure (none, some "Leaf not found")
  else
    let proofs ← proofLoop tree (tree.rows.length - 1) 0 index []
    pure (some proofs, none)

/-- Go: one iteration of the `range proofs` loop of `VerifyProofs`. -/
def verifyStep (E : Env) (branchHash : Hash) (proof : Proof) : Hash :=
  if proof.direction = Left then MergeHash E proof.hash branchHash
  else MergeHash E branchHash proof.hash

/-- Go: `func (tree MerkleTree) VerifyProofs(proofs []*Proof, leafHash Hash) bool`. -/
def VerifyProofs (E : Env) (tree : MerkleTree) (proofs : List Proof) (leafHash : Hash) :
    Except Panic Bool := do
  let index ← getLeafIndex tree leafHash
  if index = -1 then
    pure false
  else
    let branchHash := proofs.foldl (verifyStep E) leafHash
    pure (decide (branchHash = tree.root.Hash))

/-! ## Pure descriptions of the loops -/

/-- The row produced from `prevNodes` by one pass of the pairing loop. -/
def pairUp (E : Env) : List Node → List Node
  | [] => []
  | [left] => [NewBranch E left left]
  | left :: right :: rest => NewBranch E left right :: pairUp E rest

/-- The first `k` rows obtained from `row` by repeated pairing. -/
def levels (E : Env) : Nat → List Node → List (List Node)
  | 0, _ => []
  | k + 1, row => row :: levels E k (pairUp E row)

/-- Row 0: one leaf per block, and the last leaf once more when the count is odd. -/
def leafRow (E : Env) (leafsData : List Data) : List Node :=
  leafsData.map (NewLeaf E) ++
    (match leafsData.getLast? with
     | some data => if leafsData.length % 2 = 1 then [NewLeaf E data] else []
     | none => [])

/-- Half of `m`, rounded up: the length of the row above a row of length `m`. -/
def halfUp (m : Nat) : Nat :=
  (m + 1) / 2

/-- Spec §4.3, termination rule: starting from a row of length `m`, keep
producing the next row (half the length, rounded up) until a row of length 1
is reached; the result is the number of rows, with at most `fuel` rows produced
after the first. -/
def rowsUntilOne : Nat → Nat → Nat
  | 0, _ => 1
  | fuel + 1, m => if m = 1 then 1 else rowsUntilOne fuel (halfUp m) + 1

/-- Spec §4.3: the number of rows given by the length-1 termination rule for a
first row of length `m`; `m` halvings always suffice. -/
def specRowCount (m : Nat) : Nat :=
  rowsUntilOne m m

/-- Spec §4.4 step 1: `i` is the first index of `row` whose digest is `h`. -/
def IsFirstIndex (row : List Node) (h : Hash) (i : Nat) : Prop :=
  (∃ node, row[i]? = some node ∧ node.Hash = h) ∧
    ∀ (j : Nat) (node : Node), j < i → row[j]? = some node → node.Hash ≠ h

/-- Spec §4.5 step 2, one replay step: `running := combine(sibling, running)`
for Left and `running := combine(running, sibling)` for Right.  The spec names
no other direction; on one the running digest is kept. -/
def specReplayStep (E : Env) (running : Hash) (entry : Proof) : Hash :=
  if entry.direction = Left then MergeHash E entry.hash running
  else if entry.direction = Right then MergeHash E running entry.hash
  else running

/-- Spec §4.5 steps 1 and 2: the running digest after replaying the whole proof. -/
def specReplay (E : Env) (leafDigest : Hash) (proof : List Proof) : Hash :=
  proof.foldl (specReplayStep E) leafDigest

/-- The digests of a row. -/
def rowHashes (row : List Node) : List Hash :=
  row.map Node.Hash

/-! ## A sample environment for concrete evaluation -/

/-- A stand-in for `sha256.Sum256` used to run the definitions on concrete
inputs: 32 bytes derived from a rolling checksum of the input. -/
def sampleSum256 (data : Data) : Hash :=
  let seed := data.foldl (fun acc b => (acc * 257 + b.val + 1) % 4294967291) 7
  ⟨(List.range 32).map (fun i => Fin.ofNat ((seed + i) * (seed + 2 * i + 1) / 7)), by simp⟩

/-- The sample environment; `int(-Inf)` is taken to be the least 64-bit integer. -/
def sampleEnv : Env :=
  { sum256 := sampleSum256, negInfToInt := -9223372036854775808 }

/-- Five one-byte blocks. -/
def fiveBlocks : List Data := [[1], [2], [3], [4], [5]]

/-- Three one-byte blocks. -/
def threeBlocks : List Data := [[1], [2], [3]]

/-- The leaf of the one-byte block `b` in the sample environment. -/
def sampleLeaf (b : Byte) : Node :=
  NewLeaf sampleEnv [b]

/-- The digest of the one-byte block `b` in the sample environment. -/
def sampleDigest (b : Byte) : Hash :=
  HashData sampleEnv [b]

/-- The tree of three blocks `a`, `b`, `c`, written out row by row. -/
def treeOfThree (E : Env) (a b c : Data) : MerkleTree :=
  let b12 := NewBranch E (NewLeaf E a) (NewLeaf E b)
  let b33 := NewBranch E (NewLeaf E c) (NewLeaf E c)
  let top := NewBranch E b12 b33
  { root := top,
    rows := [[NewLeaf E a, NewLeaf E b, NewLeaf E c, NewLeaf E c], [b12, b33], [top]] }

/-- The tree of five blocks, written out row by row; row 1 has odd length and
its last node is paired with itself in row 2. -/
def treeOfFive (E : Env) (a b c d e : Data) : MerkleTree :=
  let b12 := NewBranch E (NewLeaf E a) (NewLeaf E b)
  let b34 := NewBranch E (NewLeaf E c) (NewLeaf E d)
  let b55 := NewBranch E (NewLeaf E e) (NewLeaf E e)
  let c1 := NewBranch E b12 b34
  let c2 := NewBranch E b55 b55
  let top := NewBranch E c1 c2
  { root := top,
    rows := [[NewLeaf E a, NewLeaf E b, NewLeaf E c, NewLeaf E d, NewLeaf E e, NewLeaf E e],
      [b12, b34, b55], [c1, c2], [top]] }

/-- The tree of `threeBlocks` in the sample environment. -/
def sampleTree3 : MerkleTree :=
  treeOfThree sampleEnv [1] [2] [3]

/-- The tree of `fiveBlocks` in the sample environment. -/
def sampleTree5 : MerkleTree :=
  treeOfFive sampleEnv [1] [2] [3] [4] [5]

/-- The proof of the first of `threeBlocks`: the second leaf on the right, then
the second node of row 1 on the right. -/
def sampleProof3 : List Proof :=
  [{ direction := Right, hash := sampleDigest 2 },
   { direction := Right, hash := MergeHash sampleEnv (sampleDigest 3) (sampleDigest 3) }]

/-- The tree of the single block `a`, written out row by row. -/
def treeOfOne (E : Env) (a : Data) : MerkleTree :=
  let top := NewBranch E (NewLeaf E a) (NewLeaf E a)
  { root := top, rows := [[NewLeaf E a, NewLeaf E a], [top]] }

/-- The digest pairs handed to `MergeHash` while `VerifyProofs` replays
`proofs` from the running digest `branchHash`, in order. -/
def replayPairs (E : Env) : Hash → List Proof → List (Hash × Hash)
  | _, [] => []
  | branchHash, proof :: rest =>
    (if proof.direction = Left then (proof.hash, branchHash) else (branchHash, proof.hash)) ::
      replayPairs E (verifyStep E branchHash proof) rest

/-- The assumption that `MergeHash` has no collision among the given pairs. -/
def MergeCollisionFree (E : Env) (pairs : List (Hash × Hash)) : Prop :=
  ∀ p ∈ pairs, ∀ q ∈ pairs, MergeHash E p.1 p.2 = MergeHash E q.1 q.2 → p = q

/-- The byte string that was hashed to obtain the digest of a node made by
`NewLeaf` (the data block) or by `NewBranch` (the bytes of the left digest
followed by the bytes of the right digest). -/
def Node.input : Node → Data
  | .Leaf _ data => data
  | .Branch _ left right => left.Hash.val ++ right.Hash.val

/-- The inputs hashed while building a tree, one for each node of each row. -/
def hashedInputs (tree : MerkleTree) : List Data :=
  tree.rows.flatMap (fun row => row.map Node.input)

/-- The assumption that `HashData` has no collision among the given inputs. -/
def HashInjectiveOn (E : Env) (inputs : List Data) : Prop :=
  ∀ x ∈ inputs, ∀ y ∈ inputs, HashData E x = HashData E y → x = y

/-- The list with the blocks at positions `i` and `j` exchanged. -/
def swapBlocks (blocks : List Data) (i j : Nat) : List Data :=
  match blocks[i]?, blocks[j]? with
  | some x, some y => (blocks.set i y).set j x
  | _, _ => blocks

/-! ## Basic facts about indexing and the construction loops -/

theorem elemAt_natCast {α : Type} (xs : List α) (n : Nat) (h : n < xs.length) :
    elemAt xs (n : Int) = .ok xs[n] := by
  unfold elemAt
  have h0 : ¬ ((n : Int) < 0) := by omega
  simp [h0, List.getElem?_eq_getElem h]

theorem elemAt_natCast_ge {α : Type} (xs : List α) (n : Nat) (h : xs.length ≤ n) :
    elemAt xs (n : Int) = .error .indexOutOfRange := by
  unfold elemAt
  have h0 : ¬ ((n : Int) < 0) := by omega
  simp [h0, List.getElem?_eq_none h]

theorem elemAt_eq_ok {α : Type} {xs : List α} {i : Int} {x : α} (h : elemAt xs i = .ok x) :
    0 ≤ i ∧ xs[i.toNat]? = some x := by
  unfold elemAt at h
  split at h
  · cases h
  · split at h
    · rename_i y hy
      cases h
      exact ⟨by omega, hy⟩
    · cases h

theorem set_getElem_same {α : Type} (xs : List α) (n : Nat) (h : n < xs.length) :
    xs.set n xs[n] = xs := by
  apply List.ext_getElem?
  intro m
  rw [List.getElem?_set]
  split
  · rename_i hnm
    subst hnm
    simp [h]
  · rfl

theorem appendAt_natCast (rows : List (List Node)) (n : Nat) (x : Node) (h : n < rows.length) :
    appendAt rows (n : Int) x = .ok (rows.set n (rows[n] ++ [x])) := by
  unfold appendAt
  rw [elemAt_natCast rows n h]
  rfl

theorem leafLoop_cons (E : Env) (ds : List Data) (r0 : List Node) (rs : List (List Node)) :
    leafLoop E ds (r0 :: rs) = .ok ((r0 ++ ds.map (NewLeaf E)) :: rs) := by
  induction ds generalizing r0 with
  | nil => simp [leafLoop]; rfl
  | cons d ds ih =>
    have h := appendAt_natCast (r0 :: rs) 0 (NewLeaf E d) (by simp)
    simp only [Nat.cast_zero] at h
    simp only [leafLoop, h]
    show leafLoop E ds _ = _
    simp [ih]

theorem pairLoop_natCast (E : Env) (n : Nat) :
    ∀ (prev : List Node) (rows : List (List Node)) (h : n < rows.length),
      pairLoop E (n : Int) prev rows = .ok (rows.set n (rows[n] ++ pairUp E prev))
  | [], rows, h => by
    simp only [pairLoop, pairUp, List.append_nil, set_getElem_same]
    rfl
  | [l], rows, h => by simp [pairLoop, pairUp, appendAt_natCast rows n _ h]
  | l :: r :: rest, rows, h => by
    simp only [pairLoop, appendAt_natCast rows n _ h]
    show pairLoop E (n : Int) rest _ = _
    rw [pairLoop_natCast E n rest _ (by simpa using h)]
    simp [pairUp]

theorem getElem_append_cons_length {α : Type} (pre : List α) (x : α) (post : List α)
    (h : pre.length < (pre ++ x :: post).length) : (pre ++ x :: post)[pre.length] = x := by
  induction pre with
  | nil => rfl
  | cons a pre ih => simpa using ih (by simp)

theorem set_append_cons_succ {α : Type} (pre : List α) (x y v : α) (post : List α) :
    (pre ++ x :: y :: post).set (pre.length + 1) v = pre ++ x :: v :: post := by
  induction pre with
  | nil => rfl
  | cons a pre ih => simp [ih]

theorem getElem_append_cons_succ {α : Type} (pre : List α) (x y : α) (post : List α)
    (h : pre.length + 1 < (pre ++ x :: y :: post).length) :
    (pre ++ x :: y :: post)[pre.length + 1] = y := by
  induction pre with
  | nil => rfl
  | cons a pre ih => simpa using ih (by simp)

theorem rowLoop_levels (E : Env) (k : Nat) :
    ∀ (pre : List (List Node)) (r : List Node),
      rowLoop E k ((pre.length + 1 : Nat) : Int) (pre ++ r :: List.replicate k []) =
        .ok (pre ++ levels E (k + 1) r) := by
  induction k with
  | zero =>
    intro pre r
    simp [rowLoop, levels]
    rfl
  | succ k ih =>
    intro pre r
    have hlen : pre.length < (pre ++ r :: List.replicate (k + 1) []).length := by simp
    have hlen1 : pre.length + 1 < (pre ++ r :: List.replicate (k + 1) []).length := by simp
    have hprev : elemAt (pre ++ r :: List.replicate (k + 1) []) (((pre.length + 1 : Nat) : Int) - 1)
        = .ok r := by
      have e : (((pre.length + 1 : Nat) : Int) - 1) = ((pre.length : Nat) : Int) := by
        push_cast; ring
      rw [e, elemAt_natCast _ _ hlen, getElem_append_cons_length]
    have hpair := pairLoop_natCast E (pre.length + 1) r _ hlen1
    have hrep : List.replicate (k + 1) ([] : List Node) = [] :: List.replicate k [] := rfl
    have hget : (pre ++ r :: List.replicate (k + 1) [])[pre.length + 1] = ([] : List Node) := by
      simp only [hrep]
      exact getElem_append_cons_succ pre r [] _ (by simp)
    rw [hget] at hpair
    have hset : (pre ++ r :: List.replicate (k + 1) []).set (pre.length + 1) ([] ++ pairUp E r)
        = (pre ++ [r]) ++ pairUp E r :: List.replicate k [] := by
      simp only [hrep, set_append_cons_succ, List.nil_append]
      simp
    rw [hset] at hpair
    have hih := ih (pre ++ [r]) (pairUp E r)
    have e2 : (((pre ++ [r]).length + 1 : Nat) : Int) = ((pre.length + 1 : Nat) : Int) + 1 := by
      simp
    rw [e2] at hih
    rw [rowLoop, hprev]
    show (pairLoop E _ r _ >>= fun rows => rowLoop E k _ rows) = _
    rw [hpair]
    show rowLoop E k _ _ = _
    rw [hih]
    simp [levels]

/-! ## The ceiling logarithm and repeated halving -/

theorem ceilLog2From_spec (m : Nat) :
    ∀ (fuel d : Nat), m ≤ 2 ^ (d + fuel) → (∀ e, e < d → 2 ^ e < m) →
      m ≤ 2 ^ ceilLog2From m fuel d ∧ ∀ e, e < ceilLog2From m fuel d → 2 ^ e < m := by
  intro fuel
  induction fuel with
  | zero =>
    intro d hd hlow
    exact ⟨by simpa [ceilLog2From] using hd, by simpa [ceilLog2From] using hlow⟩
  | succ fuel ih =>
    intro d hd hlow
    unfold ceilLog2From
    by_cases hm : m ≤ 2 ^ d
    · rw [if_pos hm]
      exact ⟨hm, hlow⟩
    · rw [if_neg hm]
      apply ih (d + 1)
      · have e : d + 1 + fuel = d + (fuel + 1) := by omega
        rw [e]
        exact hd
      · intro e he
        by_cases hed : e < d
        · exact hlow e hed
        · have : e = d := by omega
          subst this
          omega

theorem ceilLog2_spec (m : Nat) :
    m ≤ 2 ^ ceilLog2 m ∧ ∀ e, e < ceilLog2 m → 2 ^ e < m := by
  unfold ceilLog2
  apply ceilLog2From_spec m m 0
  · simpa using (Nat.lt_two_pow m).le
  · intro e he
    omega

theorem ceilLog2_le_iff (m d : Nat) : ceilLog2 m ≤ d ↔ m ≤ 2 ^ d := by
  constructor
  · intro h
    exact le_trans (ceilLog2_spec m).1 (Nat.pow_le_pow_right (by decide) h)
  · intro h
    by_contra hlt
    have := (ceilLog2_spec m).2 d (by omega)
    omega

theorem ceilLog2_eq_clog (m : Nat) : ceilLog2 m = Nat.clog 2 m := by
  apply le_antisymm
  · rw [ceilLog2_le_iff]
    exact (Nat.le_pow_iff_clog_le (by decide)).2 le_rfl
  · rw [← Nat.le_pow_iff_clog_le (by decide)]
    exact (ceilLog2_spec m).1

theorem iterate_halfUp_le_one (r : Nat) : ∀ m : Nat, halfUp^[r] m ≤ 1 ↔ m ≤ 2 ^ r := by
  induction r with
  | zero => intro m; simp
  | succ r ih =>
    intro m
    rw [Function.iterate_succ_apply, ih, pow_succ]
    unfold halfUp
    omega

theorem iterate_halfUp_pos (r : Nat) : ∀ m : Nat, 1 ≤ m → 1 ≤ halfUp^[r] m := by
  induction r with
  | zero => intro m h; simpa using h
  | succ r ih =>
    intro m h
    rw [Function.iterate_succ_apply]
    apply ih
    unfold halfUp
    omega

theorem iterate_halfUp_ceilLog2 (m : Nat) (h : 1 ≤ m) : halfUp^[ceilLog2 m] m = 1 := by
  have h1 := (iterate_halfUp_le_one (ceilLog2 m) m).2 (ceilLog2_spec m).1
  have h2 := iterate_halfUp_pos (ceilLog2 m) m h
  omega

theorem iterate_halfUp_two_le (m r : Nat) (h : r < ceilLog2 m) : 2 ≤ halfUp^[r] m := by
  by_contra hlt
  have h1 : halfUp^[r] m ≤ 1 := by omega
  rw [iterate_halfUp_le_one] at h1
  have := (ceilLog2_spec m).2 r h
  omega

/-! ## Shape of the rows -/

theorem pairUp_length (E : Env) : ∀ row : List Node, (pairUp E row).length = halfUp row.length
  | [] => rfl
  | [_] => by simp [pairUp, halfUp]
  | _ :: _ :: rest => by
    simp only [pairUp, List.length_cons, pairUp_length E rest]
    unfold halfUp
    omega

theorem iterate_pairUp_length (E : Env) (r : Nat) :
    ∀ row : List Node, ((pairUp E)^[r] row).length = halfUp^[r] row.length := by
  induction r with
  | zero => intro row; rfl
  | succ r ih =>
    intro row
    rw [Function.iterate_succ_apply, Function.iterate_succ_apply, ih, pairUp_length]

theorem levels_length (E : Env) (k : Nat) : ∀ row : List Node, (levels E k row).length = k := by
  induction k with
  | zero => intro row; rfl
  | succ k ih => intro row; simp [levels, ih]

theorem levels_getElem? (E : Env) (k : Nat) :
    ∀ (row : List Node) (r : Nat), r < k → (levels E k row)[r]? = some ((pairUp E)^[r] row) := by
  induction k with
  | zero => intro row r h; omega
  | succ k ih =>
    intro row r h
    cases r with
    | zero => simp [levels]
    | succ r =>
      simp only [levels, List.getElem?_cons_succ, Function.iterate_succ_apply]
      exact ih _ r (by omega)

theorem leafRow_length (E : Env) (leafsData : List Data) (h : leafsData ≠ []) :
    (leafRow E leafsData).length = leafsData.length + leafsData.length % 2 := by
  unfold leafRow
  obtain ⟨d, hd⟩ : ∃ d, leafsData.getLast? = some d := by
    cases hl : leafsData.getLast? with
    | none => exact absurd (List.getLast?_eq_none_iff.1 hl) h
    | some d => exact ⟨d, rfl⟩
  rw [hd]
  rcases Nat.mod_two_eq_zero_or_one leafsData.length with h0 | h1
  · simp [h0]
  · simp [h1]

/-! ## `NewTree` on a non-empty input -/

theorem depthOf_pos (E : Env) (n : Nat) (h : 1 ≤ n) :
    depthOf E n = ((ceilLog2 (n + n % 2) + 1 : Nat) : Int) := by
  unfold depthOf
  have : ¬ (n + n % 2 = 0) := by omega
  rw [if_neg this]
  push_cast
  rfl

theorem map_getElem_last (E : Env) (ds : List Data) (d : Data) (h : ds.getLast? = some d)
    (hlt : ds.length - 1 < (ds.map (NewLeaf E)).length) :
    (ds.map (NewLeaf E))[ds.length - 1] = NewLeaf E d := by
  rw [List.getElem_map]
  congr 1
  rw [List.getLast?_eq_getElem?] at h
  have h2 := List.getElem?_eq_getElem (l := ds) (n := ds.length - 1) (by simpa using hlt)
  rw [h2] at h
  exact Option.some.inj h

theorem duplicateOddLeaf_eq (E : Env) (ds : List Data) (hne : ds ≠ []) (rs : List (List Node)) :
    duplicateOddLeaf (ds.length : Int) (ds.map (NewLeaf E) :: rs) = .ok (leafRow E ds :: rs) := by
  have hpos : 1 ≤ ds.length := List.length_pos.2 hne
  obtain ⟨d, hd⟩ : ∃ d, ds.getLast? = some d := by
    cases hl : ds.getLast? with
    | none => exact absurd (List.getLast?_eq_none_iff.1 hl) hne
    | some d => exact ⟨d, rfl⟩
  have ecast : (ds.length : Int) - 1 = ((ds.length - 1 : Nat) : Int) := by omega
  have hmod : Int.tmod ((ds.length : Int) - 1) 2 = (((ds.length - 1) % 2 : Nat) : Int) := by
    rw [ecast]
    rfl
  unfold leafRow duplicateOddLeaf
  rw [hd]
  by_cases hodd : ds.length % 2 = 1
  · have h0 : Int.tmod ((ds.length : Int) - 1) 2 = 0 := by
      rw [hmod]
      have : (ds.length - 1) % 2 = 0 := by omega
      rw [this]
      rfl
    rw [if_pos h0]
    simp only [if_pos hodd]
    have e0 := elemAt_natCast (ds.map (NewLeaf E) :: rs) 0 (by simp)
    simp only [Nat.cast_zero] at e0
    rw [e0]
    show (elemAt (ds.map (NewLeaf E)) ((ds.length : Int) - 1) >>= fun last =>
      appendAt (ds.map (NewLeaf E) :: rs) 0 last) = _
    rw [ecast, elemAt_natCast _ _ (by simp; omega), map_getElem_last E ds d hd]
    show appendAt (ds.map (NewLeaf E) :: rs) 0 (NewLeaf E d) = _
    have e1 := appendAt_natCast (ds.map (NewLeaf E) :: rs) 0 (NewLeaf E d) (by simp)
    simp only [Nat.cast_zero] at e1
    rw [e1]
    rfl
  · have h0 : ¬ Int.tmod ((ds.length : Int) - 1) 2 = 0 := by
      rw [hmod]
      have : (ds.length - 1) % 2 = 1 := by omega
      rw [this]
      decide
    rw [if_neg h0]
    simp only [if_neg hodd]
    simp
    rfl

theorem ok_bind {α β : Type} (x : α) (f : α → Except Panic β) :
    (Except.ok x >>= f) = f x :=
  rfl

theorem error_bind {α β : Type} (p : Panic) (f : α → Except Panic β) :
    (Except.error p >>= f) = Except.error p :=
  rfl

theorem iterate_pairUp_last (E : Env) (ds : List Data) (hne : ds ≠ []) :
    ∃ root, (pairUp E)^[ceilLog2 (ds.length + ds.length % 2)] (leafRow E ds) = [root] := by
  have hpos : 1 ≤ ds.length := List.length_pos.2 hne
  have hlen := iterate_pairUp_length E (ceilLog2 (ds.length + ds.length % 2)) (leafRow E ds)
  rw [leafRow_length E ds hne, iterate_halfUp_ceilLog2 _ (by omega)] at hlen
  exact List.length_eq_one.1 hlen

theorem NewTree_eq (E : Env) (ds : List Data) (hne : ds ≠ []) :
    ∃ root, NewTree E ds = .ok
        { root := root,
          rows := levels E (ceilLog2 (ds.length + ds.length % 2) + 1) (leafRow E ds) } ∧
      (pairUp E)^[ceilLog2 (ds.length + ds.length % 2)] (leafRow E ds) = [root] := by
  have hpos : 1 ≤ ds.length := List.length_pos.2 hne
  obtain ⟨root, hroot⟩ := iterate_pairUp_last E ds hne
  refine ⟨root, ?_, hroot⟩
  generalize hc : ceilLog2 (ds.length + ds.length % 2) = c at hroot ⊢
  simp only [NewTree]
  rw [depthOf_pos E ds.length hpos, hc]
  have hmk : makeRows ((c + 1 : Nat) : Int) = .ok ([] :: List.replicate c []) := by
    unfold makeRows
    rw [if_neg (by omega)]
    rfl
  have hleaf := leafLoop_cons E ds [] (List.replicate c [])
  rw [List.nil_append] at hleaf
  have hdup := duplicateOddLeaf_eq E ds hne (List.replicate c [])
  have hrow := rowLoop_levels E c [] (leafRow E ds)
  simp only [List.length_nil, Nat.zero_add, Nat.cast_one, List.nil_append] at hrow
  have e1 : (((c + 1 : Nat) : Int) - 1).toNat = c := by omega
  have e2 : (((c + 1 : Nat) : Int) - 1) = (c : Int) := by omega
  have hlast : elemAt (levels E (c + 1) (leafRow E ds)) (c : Int) =
      .ok ((pairUp E)^[c] (leafRow E ds)) := by
    have hlt : c < (levels E (c + 1) (leafRow E ds)).length := by
      rw [levels_length]; omega
    rw [elemAt_natCast _ _ hlt]
    have := levels_getElem? E (c + 1) (leafRow E ds) c (by omega)
    rw [List.getElem?_eq_getElem hlt] at this
    rw [Option.some.inj this]
  have hzero : elemAt [root] 0 = .ok root := rfl
  rw [hmk, ok_bind, hleaf, ok_bind, hdup, ok_bind, e1, hrow, ok_bind, e2, hlast, ok_bind,
    hroot, hzero, ok_bind]
  rfl

theorem NewTree_inv (E : Env) (ds : List Data) (hne : ds ≠ []) (tree : MerkleTree)
    (h : NewTree E ds = .ok tree) :
    tree.rows = levels E (ceilLog2 (ds.length + ds.length % 2) + 1) (leafRow E ds) ∧
      (pairUp E)^[ceilLog2 (ds.length + ds.length % 2)] (leafRow E ds) = [tree.root] := by
  obtain ⟨root, h1, h2⟩ := NewTree_eq E ds hne
  rw [h1] at h
  cases h
  exact ⟨rfl, h2⟩

theorem NewTree_row (E : Env) (ds : List Data) (hne : ds ≠ []) (tree : MerkleTree)
    (h : NewTree E ds = .ok tree) (r : Nat) (row : List Node) (hrow : tree.rows[r]? = some row) :
    r ≤ ceilLog2 (ds.length + ds.length % 2) ∧ row = (pairUp E)^[r] (leafRow E ds) := by
  obtain ⟨h1, _⟩ := NewTree_inv E ds hne tree h
  rw [h1] at hrow
  have hr : r < ceilLog2 (ds.length + ds.length % 2) + 1 := by
    have := (List.getElem?_eq_some_iff.1 hrow).1
    rwa [levels_length] at this
  rw [levels_getElem? E _ _ r hr] at hrow
  exact ⟨by omega, (Option.some.inj hrow).symm⟩

theorem NewTree_row0 (E : Env) (ds : List Data) (hne : ds ≠ []) (tree : MerkleTree)
    (h : NewTree E ds = .ok tree) : tree.rows[0]? = some (leafRow E ds) := by
  obtain ⟨h1, _⟩ := NewTree_inv E ds hne tree h
  rw [h1]
  exact levels_getElem? E _ _ 0 (by omega)

theorem rowHashes_leafRow (E : Env) (ds : List Data) (hne : ds ≠ []) :
    rowHashes (leafRow E ds) = ds.map (HashData E) ++
      (if ds.length % 2 = 1 then [HashData E (ds.getLast hne)] else []) := by
  unfold leafRow rowHashes
  rw [List.getLast?_eq_getLast ds hne]
  by_cases hodd : ds.length % 2 = 1
  · simp [hodd, NewLeaf, Node.Hash]
  · simp [hodd, NewLeaf, Node.Hash]

/-! ## Row 0 -/

/-- C5. For every non-empty list of blocks, `NewTree` returns a tree whose row 0
has as digests `HashData` of each block in input order, followed by one more
copy of the last block's digest exactly when the number of blocks is odd; row 0
has length `n + n % 2`, which is even, and which is 2 when `n = 1`. -/
theorem C5_row0_construction (E : Env) (blocks : List Data) (hne : blocks ≠ []) :
    ∃ tree row0, NewTree E blocks = .ok tree ∧ tree.rows[0]? = some row0 ∧
      rowHashes row0 = blocks.map (HashData E) ++
        (if blocks.length % 2 = 1 then [HashData E (blocks.getLast hne)] else []) ∧
      row0.length = blocks.length + blocks.length % 2 ∧
      row0.length % 2 = 0 ∧
      (blocks.length = 1 → row0.length = 2) := by
  obtain ⟨root, h1, _⟩ := NewTree_eq E blocks hne
  refine ⟨_, leafRow E blocks, h1, NewTree_row0 E blocks hne _ h1, rowHashes_leafRow E blocks hne,
    leafRow_length E blocks hne, ?_, ?_⟩
  · rw [leafRow_length E blocks hne]
    omega
  · intro hn
    rw [leafRow_length E blocks hne, hn]

/-- C5 at three sample blocks: row 0 holds the three digests and the third once more. -/
theorem C5_row0_construction_witness :
    ∃ tree row0, NewTree sampleEnv threeBlocks = .ok tree ∧ tree.rows[0]? = some row0 ∧
      rowHashes row0 = [HashData sampleEnv [1], HashData sampleEnv [2], HashData sampleEnv [3],
        HashData sampleEnv [3]] ∧
      row0.length = 4 := by
  obtain ⟨tree, row0, h1, h2, h3, h4, _, _⟩ :=
    C5_row0_construction sampleEnv threeBlocks (by decide)
  exact ⟨tree, row0, h1, h2, h3, h4⟩

/-! ## Per-level pairing -/

theorem NewBranch_Hash (E : Env) (l r : Node) :
    (NewBranch E l r).Hash = MergeHash E l.Hash r.Hash :=
  rfl

theorem pairUp_getElem? (E : Env) :
    ∀ (prev : List Node) (j : Nat) (node : Node), (pairUp E prev)[j]? = some node →
      ∃ left, prev[2 * j]? = some left ∧
        ((∃ right, prev[2 * j + 1]? = some right ∧ node = NewBranch E left right) ∨
          (prev.length = 2 * j + 1 ∧ node = NewBranch E left left))
  | [], j, node, h => by simp [pairUp] at h
  | [l], j, node, h => by
    cases j with
    | zero =>
      simp only [pairUp, List.getElem?_cons_zero, Option.some.injEq] at h
      exact ⟨l, rfl, Or.inr ⟨rfl, h.symm⟩⟩
    | succ j => simp [pairUp] at h
  | l :: r :: rest, j, node, h => by
    cases j with
    | zero =>
      simp only [pairUp, List.getElem?_cons_zero, Option.some.injEq] at h
      exact ⟨l, rfl, Or.inl ⟨r, by simp, h.symm⟩⟩
    | succ j =>
      simp only [pairUp, List.getElem?_cons_succ] at h
      obtain ⟨left, h1, h2⟩ := pairUp_getElem? E rest j node h
      have e1 : 2 * (j + 1) = (2 * j + 1) + 1 := by omega
      refine ⟨left, ?_, ?_⟩
      · rw [e1, List.getElem?_cons_succ, List.getElem?_cons_succ]
        exact h1
      · rcases h2 with ⟨right, h3, h4⟩ | ⟨h3, h4⟩
        · left
          refine ⟨right, ?_, h4⟩
          rw [e1, List.getElem?_cons_succ, List.getElem?_cons_succ]
          exact h3
        · right
          refine ⟨?_, h4⟩
          simp only [List.length_cons, h3]
          omega

/-- C4. In the tree built by `NewTree` from a non-empty list, every row `r ≥ 1`
has `⌈len(rows[r-1]) / 2⌉` nodes, and the digest of `rows[r][j]` is `MergeHash`
of the digests of `rows[r-1][2j]` and `rows[r-1][2j+1]` when `2j+1` is in range,
and `MergeHash d d` with `d` the digest of `rows[r-1][2j]` when `rows[r-1]` has
odd length and `2j` is its last index. -/
theorem C4_per_level_pairing (E : Env) (blocks : List Data) (hne : blocks ≠ []) :
    ∃ tree, NewTree E blocks = .ok tree ∧
      ∀ (r : Nat) (prev row : List Node), 1 ≤ r →
        tree.rows[r - 1]? = some prev → tree.rows[r]? = some row →
        row.length = (prev.length + 1) / 2 ∧
        ∀ (j : Nat) (node : Node), row[j]? = some node →
          ∃ left, prev[2 * j]? = some left ∧
            (2 * j + 1 < prev.length →
              ∃ right, prev[2 * j + 1]? = some right ∧
                node.Hash = MergeHash E left.Hash right.Hash) ∧
            (prev.length % 2 = 1 → 2 * j = prev.length - 1 →
              node.Hash = MergeHash E left.Hash left.Hash) := by
  obtain ⟨root, hb, _⟩ := NewTree_eq E blocks hne
  refine ⟨_, hb, ?_⟩
  intro r prev row hr hprev hrow
  obtain ⟨_, e1⟩ := NewTree_row E blocks hne _ hb (r - 1) prev hprev
  obtain ⟨_, e2⟩ := NewTree_row E blocks hne _ hb r row hrow
  have hstep : row = pairUp E prev := by
    rw [e2, e1]
    have : r = (r - 1) + 1 := by omega
    rw [this, Function.iterate_succ_apply']
    rfl
  refine ⟨?_, ?_⟩
  · rw [hstep, pairUp_length]
    rfl
  · intro j node hj
    rw [hstep] at hj
    obtain ⟨left, h1, h2⟩ := pairUp_getElem? E prev j node hj
    refine ⟨left, h1, ?_, ?_⟩
    · intro hlt
      rcases h2 with ⟨right, h3, h4⟩ | ⟨h3, _⟩
      · exact ⟨right, h3, by rw [h4, NewBranch_Hash]⟩
      · omega
    · intro _ hlast
      rcases h2 with ⟨right, h3, _⟩ | ⟨_, h4⟩
      · have := (List.getElem?_eq_some_iff.1 h3).1
        have := (List.getElem?_eq_some_iff.1 h1).1
        omega
      · rw [h4, NewBranch_Hash]

/-- C4 on five sample blocks: row 1 has three nodes, row 2 has two, and the
second node of row 2 pairs the unpaired third node of row 1 with itself. -/
theorem C4_per_level_pairing_witness :
    ∃ tree prev row node left, NewTree sampleEnv fiveBlocks = .ok tree ∧
      tree.rows[1]? = some prev ∧ tree.rows[2]? = some row ∧
      prev.length = 3 ∧ row.length = (3 + 1) / 2 ∧ row[1]? = some node ∧
      prev[2]? = some left ∧ node.Hash = MergeHash sampleEnv left.Hash left.Hash := by
  obtain ⟨tree, hb, hall⟩ := C4_per_level_pairing sampleEnv fiveBlocks (by decide)
  have hrows := (NewTree_inv sampleEnv fiveBlocks (by decide) tree hb).1
  have h1 : tree.rows[1]? = some (pairUp sampleEnv (leafRow sampleEnv fiveBlocks)) := by
    rw [hrows]; rfl
  have h2 : tree.rows[2]? =
      some (pairUp sampleEnv (pairUp sampleEnv (leafRow sampleEnv fiveBlocks))) := by
    rw [hrows]; rfl
  obtain ⟨hlen, hnodes⟩ := hall 2 _ _ (by decide) h1 h2
  have hlen3 : (pairUp sampleEnv (leafRow sampleEnv fiveBlocks)).length = 3 := rfl
  obtain ⟨node, hnode⟩ : ∃ node,
      (pairUp sampleEnv (pairUp sampleEnv (leafRow sampleEnv fiveBlocks)))[1]? = some node :=
    ⟨_, rfl⟩
  obtain ⟨left, hl, _, hself⟩ := hnodes 1 node hnode
  exact ⟨tree, _, _, node, left, hb, h1, h2, hlen3, hlen3 ▸ hlen, hnode, hl,
    hself (by rw [hlen3]) (by rw [hlen3])⟩

/-! ## The depth formula and the termination rule -/

theorem ceilLog2_halfUp (m : Nat) (h : 2 ≤ m) : ceilLog2 m = ceilLog2 (halfUp m) + 1 := by
  have key : ∀ d, ceilLog2 (halfUp m) ≤ d ↔ ceilLog2 m ≤ d + 1 := by
    intro d
    rw [ceilLog2_le_iff, ceilLog2_le_iff, pow_succ]
    unfold halfUp
    omega
  have hpos : 1 ≤ ceilLog2 m := by
    by_contra hlt
    have h0 : ceilLog2 m ≤ 0 := by omega
    rw [ceilLog2_le_iff] at h0
    simp at h0
    omega
  apply le_antisymm
  · exact (key _).1 le_rfl
  · have := (key (ceilLog2 m - 1)).2 (by omega)
    omega

theorem ceilLog2_le_self (m : Nat) : ceilLog2 m ≤ m := by
  rw [ceilLog2_le_iff]
  exact (Nat.lt_two_pow m).le

theorem rowsUntilOne_eq (fuel : Nat) :
    ∀ m : Nat, 1 ≤ m → ceilLog2 m ≤ fuel → rowsUntilOne fuel m = ceilLog2 m + 1 := by
  induction fuel with
  | zero =>
    intro m _ hf
    have : ceilLog2 m = 0 := by omega
    rw [this]
    rfl
  | succ fuel ih =>
    intro m hm hf
    unfold rowsUntilOne
    by_cases h1 : m = 1
    · rw [if_pos h1, h1]
      rfl
    · rw [if_neg h1]
      have h2 : 2 ≤ m := by omega
      have hc := ceilLog2_halfUp m h2
      rw [ih (halfUp m) (by unfold halfUp; omega) (by omega), hc]

theorem specRowCount_eq (m : Nat) (h : 1 ≤ m) : specRowCount m = ceilLog2 m + 1 :=
  rowsUntilOne_eq m m h (ceilLog2_le_self m)

/-- C6. For every non-empty list of `n` blocks, the number of rows `NewTree`
allocates, `⌈log2 (n + n % 2)⌉ + 1` with the exact integer ceiling logarithm,
is the number of rows given by halving the length `n + n % 2` (rounding up)
until length 1 is first reached; the returned tree has that many rows, its last
row is the single node that is the root, and every earlier row has at least
two nodes. -/
theorem C6_depth_matches_termination (E : Env) (blocks : List Data) (hne : blocks ≠ []) :
    ∃ tree, NewTree E blocks = .ok tree ∧
      depthOf E blocks.length = (specRowCount (blocks.length + blocks.length % 2) : Int) ∧
      specRowCount (blocks.length + blocks.length % 2) =
        Nat.clog 2 (blocks.length + blocks.length % 2) + 1 ∧
      halfUp^[specRowCount (blocks.length + blocks.length % 2) - 1]
        (blocks.length + blocks.length % 2) = 1 ∧
      (∀ r, r < specRowCount (blocks.length + blocks.length % 2) - 1 →
        halfUp^[r] (blocks.length + blocks.length % 2) ≠ 1) ∧
      tree.rows.length = specRowCount (blocks.length + blocks.length % 2) ∧
      (∀ (r : Nat) (row : List Node), tree.rows[r]? = some row →
        row.length = halfUp^[r] (blocks.length + blocks.length % 2) ∧
        (r + 1 = tree.rows.length → row = [tree.root]) ∧
        (r + 1 < tree.rows.length → 2 ≤ row.length)) := by
  have hpos : 1 ≤ blocks.length := List.length_pos.2 hne
  obtain ⟨root, hb, hroot⟩ := NewTree_eq E blocks hne
  have hm : 1 ≤ blocks.length + blocks.length % 2 := by omega
  have hs := specRowCount_eq _ hm
  refine ⟨_, hb, ?_, ?_, ?_, ?_, ?_, ?_⟩
  · rw [depthOf_pos E blocks.length hpos, hs]
  · rw [hs, ceilLog2_eq_clog]
  · rw [hs, Nat.add_sub_cancel]
    exact iterate_halfUp_ceilLog2 _ hm
  · intro r hr
    rw [hs, Nat.add_sub_cancel] at hr
    have := iterate_halfUp_two_le _ r hr
    omega
  · rw [hs]
    exact levels_length E _ _
  · intro r row hrow
    obtain ⟨hr, e⟩ := NewTree_row E blocks hne _ hb r row hrow
    have hlen : row.length = halfUp^[r] (blocks.length + blocks.length % 2) := by
      rw [e, iterate_pairUp_length, leafRow_length E blocks hne]
    have hrows : (levels E (ceilLog2 (blocks.length + blocks.length % 2) + 1)
        (leafRow E blocks)).length = ceilLog2 (blocks.length + blocks.length % 2) + 1 :=
      levels_length E _ _
    refine ⟨hlen, ?_, ?_⟩
    · intro hlast
      have hlast2 : r + 1 = (levels E (ceilLog2 (blocks.length + blocks.length % 2) + 1)
          (leafRow E blocks)).length := hlast
      rw [hrows] at hlast2
      have : r = ceilLog2 (blocks.length + blocks.length % 2) := by omega
      rw [e, this]
      exact hroot
    · intro hlt
      have hlt2 : r + 1 < (levels E (ceilLog2 (blocks.length + blocks.length % 2) + 1)
          (leafRow E blocks)).length := hlt
      rw [hrows] at hlt2
      rw [hlen]
      exact iterate_halfUp_two_le _ r (by omega)

/-- C6 on five sample blocks: four rows, of lengths 6, 3, 2 and 1. -/
theorem C6_depth_matches_termination_witness :
    ∃ tree, NewTree sampleEnv fiveBlocks = .ok tree ∧
      depthOf sampleEnv 5 = 4 ∧ specRowCount 6 = 4 ∧ tree.rows.length = 4 ∧
      tree.rows.map List.length = [6, 3, 2, 1] ∧ tree.rows[3]? = some [tree.root] := by
  obtain ⟨tree, hb, h1, _, _, _, h5, h6⟩ :=
    C6_depth_matches_termination sampleEnv fiveBlocks (by decide)
  have hrows := (NewTree_inv sampleEnv fiveBlocks (by decide) tree hb).1
  have h3 : tree.rows[3]? = some ((pairUp sampleEnv)^[3] (leafRow sampleEnv fiveBlocks)) := by
    rw [hrows]; rfl
  have hlast := (h6 3 _ h3).2.1 (by rw [h5]; rfl)
  refine ⟨tree, hb, h1, rfl, h5, ?_, ?_⟩
  · rw [hrows]; rfl
  · rw [h3, hlast]

/-! ## Leaf lookup -/

theorem scanLeaf_absent (h : Hash) :
    ∀ (row : List Node) (i : Int), (∀ node ∈ row, node.Hash ≠ h) → scanLeaf h row i = -1
  | [], _, _ => rfl
  | node :: rest, i, hall => by
    have h1 : node.Hash ≠ h := hall node (by simp)
    rw [scanLeaf, if_neg h1]
    exact scanLeaf_absent h rest (i + 1) (fun n hn => hall n (by simp [hn]))

theorem scanLeaf_first (h : Hash) :
    ∀ (row : List Node) (i : Int) (k : Nat), IsFirstIndex row h k →
      scanLeaf h row i = i + (k : Int)
  | [], _, k, hk => by
    obtain ⟨⟨node, h1, _⟩, _⟩ := hk
    simp at h1
  | node :: rest, i, k, hk => by
    obtain ⟨⟨n0, h1, h2⟩, hmin⟩ := hk
    cases k with
    | zero =>
      simp only [List.getElem?_cons_zero, Option.some.injEq] at h1
      subst h1
      rw [scanLeaf, if_pos h2]
      simp
    | succ k =>
      have hne : node.Hash ≠ h := hmin 0 node (by omega) (by simp)
      rw [scanLeaf, if_neg hne]
      have hrest : IsFirstIndex rest h k := by
        refine ⟨⟨n0, by simpa using h1, h2⟩, ?_⟩
        intro j n hj hn
        exact hmin (j + 1) n (by omega) (by simpa using hn)
      rw [scanLeaf_first h rest (i + 1) k hrest]
      push_cast
      ring

theorem exists_firstIndex (h : Hash) :
    ∀ row : List Node, (∃ node ∈ row, node.Hash = h) → ∃ k, IsFirstIndex row h k
  | [], hex => by
    obtain ⟨node, hmem, _⟩ := hex
    simp at hmem
  | node :: rest, hex => by
    by_cases h0 : node.Hash = h
    · refine ⟨0, ⟨node, by simp, h0⟩, ?_⟩
      intro j n hj
      omega
    · have hex2 : ∃ n ∈ rest, n.Hash = h := by
        obtain ⟨n, hmem, hn⟩ := hex
        rcases List.mem_cons.1 hmem with e | hmem2
        · subst e
          exact absurd hn h0
        · exact ⟨n, hmem2, hn⟩
      obtain ⟨k, ⟨n1, h1, h2⟩, hmin⟩ := exists_firstIndex h rest hex2
      refine ⟨k + 1, ⟨n1, by simpa using h1, h2⟩, ?_⟩
      intro j n hj hn
      cases j with
      | zero =>
        simp only [List.getElem?_cons_zero, Option.some.injEq] at hn
        subst hn
        exact h0
      | succ j => exact hmin j n (by omega) (by simpa using hn)

theorem getLeafIndex_eq (tree : MerkleTree) (row0 : List Node) (h : Hash)
    (hrow : tree.rows[0]? = some row0) : getLeafIndex tree h = .ok (scanLeaf h row0 0) := by
  unfold getLeafIndex
  have hlt := (List.getElem?_eq_some_iff.1 hrow).1
  have e := elemAt_natCast tree.rows 0 hlt
  simp only [Nat.cast_zero] at e
  rw [e, ok_bind]
  have := (List.getElem?_eq_some_iff.1 hrow).2
  rw [this]
  rfl

theorem getLeafIndex_absent (tree : MerkleTree) (row0 : List Node) (h : Hash)
    (hrow : tree.rows[0]? = some row0) (habs : ∀ node ∈ row0, node.Hash ≠ h) :
    getLeafIndex tree h = .ok (-1) := by
  rw [getLeafIndex_eq tree row0 h hrow, scanLeaf_absent h row0 0 habs]

theorem getLeafIndex_first (tree : MerkleTree) (row0 : List Node) (h : Hash) (k : Nat)
    (hrow : tree.rows[0]? = some row0) (hk : IsFirstIndex row0 h k) :
    getLeafIndex tree h = .ok (k : Int) := by
  rw [getLeafIndex_eq tree row0 h hrow, scanLeaf_first h row0 0 k hk]
  simp

theorem neg_one_ne_natCast (k : Nat) : ¬ ((k : Int) = -1) := by
  omega

theorem foldl_verifyStep_eq (E : Env) :
    ∀ (proofs : List Proof) (h : Hash),
      (∀ p ∈ proofs, p.direction = Left ∨ p.direction = Right) →
      proofs.foldl (verifyStep E) h = specReplay E h proofs
  | [], _, _ => rfl
  | p :: rest, h, hdir => by
    have hstep : verifyStep E h p = specReplayStep E h p := by
      unfold verifyStep specReplayStep
      rcases hdir p (by simp) with hl | hr
      · rw [if_pos hl, if_pos hl]
      · have hnl : ¬ p.direction = Left := by
          rw [hr]
          decide
        rw [if_neg hnl, if_neg hnl, if_pos hr]
    unfold specReplay
    rw [List.foldl_cons, List.foldl_cons, hstep]
    exact foldl_verifyStep_eq E rest _ (fun q hq => hdir q (by simp [hq]))

/-! ## Verification -/

/-- C2. For a tree built by `NewTree` from a non-empty list, a digest `h`
present in row 0 and a proof list whose entries are Left or Right,
`VerifyProofs` returns whether the running digest equals the root digest, the
running digest starting at `h` and being updated per entry, in list order, to
`MergeHash entry.hash running` for Left and `MergeHash running entry.hash` for
Right. -/
theorem C2_verification_replay (E : Env) (blocks : List Data) (hne : blocks ≠ []) :
    ∃ tree row0, NewTree E blocks = .ok tree ∧ tree.rows[0]? = some row0 ∧
      ∀ (h : Hash) (proofs : List Proof), (∃ node ∈ row0, node.Hash = h) →
        (∀ p ∈ proofs, p.direction = Left ∨ p.direction = Right) →
        VerifyProofs E tree proofs h =
          .ok (decide (specReplay E h proofs = tree.root.Hash)) := by
  obtain ⟨root, hb, _⟩ := NewTree_eq E blocks hne
  have hrow0 := NewTree_row0 E blocks hne _ hb
  refine ⟨_, _, hb, hrow0, ?_⟩
  intro h proofs hpres hdir
  obtain ⟨k, hk⟩ := exists_firstIndex h _ hpres
  unfold VerifyProofs
  rw [getLeafIndex_first _ _ h k hrow0 hk, ok_bind, if_neg (neg_one_ne_natCast k),
    foldl_verifyStep_eq E proofs h hdir]
  rfl

/-- C8. For a tree built by `NewTree` from a non-empty list and a digest `h`
that is the digest of no row-0 node, `VerifyProofs` returns `false` on every
proof list; the result is a boolean, not a fault. -/
theorem C8_absent_leaf_rejected (E : Env) (blocks : List Data) (hne : blocks ≠ []) :
    ∃ tree row0, NewTree E blocks = .ok tree ∧ tree.rows[0]? = some row0 ∧
      ∀ (h : Hash), (∀ node ∈ row0, node.Hash ≠ h) →
        ∀ proofs : List Proof, VerifyProofs E tree proofs h = .ok false := by
  obtain ⟨root, hb, _⟩ := NewTree_eq E blocks hne
  have hrow0 := NewTree_row0 E blocks hne _ hb
  refine ⟨_, _, hb, hrow0, ?_⟩
  intro h habs proofs
  unfold VerifyProofs
  rw [getLeafIndex_absent _ _ h hrow0 habs, ok_bind, if_pos rfl]
  rfl

/-! ## Leaf not found -/

/-- C7. For a tree built by `NewTree` from a non-empty list: when `h` differs
from the digest of every row-0 node, `GetProofs` returns the nil proof with the
error "Leaf not found"; when some row-0 node has digest `h`, `GetProofs` returns
no error. -/
theorem C7_leaf_not_found (E : Env) (blocks : List Data) (hne : blocks ≠ []) :
    ∃ tree row0, NewTree E blocks = .ok tree ∧ tree.rows[0]? = some row0 ∧
      ∀ (h : Hash),
        ((∀ node ∈ row0, node.Hash ≠ h) →
          GetProofs tree h = .ok (none, some "Leaf not found")) ∧
        ((∃ node ∈ row0, node.Hash = h) →
          ∀ (proofs : Option (List Proof)) (msg : String),
            GetProofs tree h ≠ .ok (proofs, some msg)) := by
  obtain ⟨root, hb, _⟩ := NewTree_eq E blocks hne
  have hrow0 := NewTree_row0 E blocks hne _ hb
  refine ⟨_, _, hb, hrow0, ?_⟩
  intro h
  constructor
  · intro habs
    unfold GetProofs
    rw [getLeafIndex_absent _ _ h hrow0 habs, ok_bind, if_pos rfl]
    rfl
  · intro hpres proofs msg
    obtain ⟨k, hk⟩ := exists_firstIndex h _ hpres
    unfold GetProofs
    rw [getLeafIndex_first _ _ h k hrow0 hk, ok_bind, if_neg (neg_one_ne_natCast k)]
    intro hcontra
    cases hloop : proofLoop _ (_ - 1) 0 (k : Int) [] with
    | error p =>
      rw [hloop] at hcontra
      cases hcontra
    | ok ps =>
      rw [hloop] at hcontra
      cases hcontra

/-! ## Proof generation -/

theorem elemAt_natCast_ok {α : Type} {xs : List α} {n : Nat} {x : α}
    (h : elemAt xs (n : Int) = .ok x) : xs[n]? = some x := by
  have := (elemAt_eq_ok h).2
  simpa using this

theorem proofLoop_ok (tree : MerkleTree) (k : Nat) :
    ∀ (i idx : Nat) (acc proofs : List Proof),
      proofLoop tree k (i : Int) (idx : Int) acc = .ok proofs →
      ∃ new, proofs = acc ++ new ∧ new.length = k ∧
        ∀ t, t < k → ∃ row, tree.rows[i + t]? = some row ∧
          ((idx / 2 ^ t) % 2 = 1 →
            ∃ node, row[idx / 2 ^ t - 1]? = some node ∧
              new[t]? = some { direction := Left, hash := node.Hash }) ∧
          ((idx / 2 ^ t) % 2 = 0 →
            ∃ node, row[idx / 2 ^ t + 1]? = some node ∧
              new[t]? = some { direction := Right, hash := node.Hash }) := by
  induction k with
  | zero =>
    intro i idx acc proofs h
    refine ⟨[], ?_, rfl, ?_⟩
    · have : Except.ok acc = Except.ok proofs := h
      cases this
      simp
    · intro t ht
      omega
  | succ k ih =>
    intro i idx acc proofs h
    rw [proofLoop] at h
    cases hrow : elemAt tree.rows (i : Int) with
    | error p =>
      rw [hrow, error_bind] at h
      cases h
    | ok row =>
      rw [hrow, ok_bind] at h
      have hrow2 := elemAt_natCast_ok hrow
      have hmod : Int.tmod (idx : Int) 2 = ((idx % 2 : Nat) : Int) := rfl
      have hdiv : Int.tdiv (idx : Int) 2 = ((idx / 2 : Nat) : Int) := rfl
      have hnext : (i : Int) + 1 = ((i + 1 : Nat) : Int) := by push_cast; rfl
      rw [hmod, hdiv, hnext] at h
      have step : ∀ (t : Nat), idx / 2 / 2 ^ t = idx / 2 ^ (t + 1) := by
        intro t
        rw [Nat.div_div_eq_div_mul, pow_succ, Nat.mul_comm]
      by_cases hodd : idx % 2 = 1
      · have hc : ((idx % 2 : Nat) : Int) = 1 := by rw [hodd]; rfl
        rw [if_pos hc] at h
        have hsub : (idx : Int) - 1 = ((idx - 1 : Nat) : Int) := by omega
        rw [hsub] at h
        cases hnode : elemAt row ((idx - 1 : Nat) : Int) with
        | error p =>
          rw [hnode, error_bind] at h
          cases h
        | ok node =>
          rw [hnode, ok_bind] at h
          obtain ⟨new, h1, h2, h3⟩ := ih (i + 1) (idx / 2) _ proofs h
          refine ⟨{ direction := Left, hash := node.Hash } :: new, ?_, ?_, ?_⟩
          · rw [h1]; simp
          · simp [h2]
          · intro t ht
            cases t with
            | zero =>
              refine ⟨row, by simpa using hrow2, ?_, ?_⟩
              · intro _
                exact ⟨node, by simpa using elemAt_natCast_ok hnode, by simp⟩
              · intro he
                simp at he
                omega
            | succ t =>
              obtain ⟨row2, g1, g2, g3⟩ := h3 t (by omega)
              have e : i + (t + 1) = i + 1 + t := by omega
              refine ⟨row2, by rw [e]; exact g1, ?_, ?_⟩
              · intro ho
                rw [← step] at ho ⊢
                obtain ⟨n2, g4, g5⟩ := g2 ho
                exact ⟨n2, g4, by simpa using g5⟩
              · intro he
                rw [← step] at he ⊢
                obtain ⟨n2, g4, g5⟩ := g3 he
                exact ⟨n2, g4, by simpa using g5⟩
      · have hc : ¬ ((idx % 2 : Nat) : Int) = 1 := by omega
        rw [if_neg hc] at h
        have hadd : (idx : Int) + 1 = ((idx + 1 : Nat) : Int) := by push_cast; rfl
        rw [hadd] at h
        cases hnode : elemAt row ((idx + 1 : Nat) : Int) with
        | error p =>
          rw [hnode, error_bind] at h
          cases h
        | ok node =>
          rw [hnode, ok_bind] at h
          obtain ⟨new, h1, h2, h3⟩ := ih (i + 1) (idx / 2) _ proofs h
          refine ⟨{ direction := Right, hash := node.Hash } :: new, ?_, ?_, ?_⟩
          · rw [h1]; simp
          · simp [h2]
          · intro t ht
            cases t with
            | zero =>
              refine ⟨row, by simpa using hrow2, ?_, ?_⟩
              · intro ho
                simp at ho
                omega
              · intro _
                exact ⟨node, by simpa using elemAt_natCast_ok hnode, by simp⟩
            | succ t =>
              obtain ⟨row2, g1, g2, g3⟩ := h3 t (by omega)
              have e : i + (t + 1) = i + 1 + t := by omega
              refine ⟨row2, by rw [e]; exact g1, ?_, ?_⟩
              · intro ho
                rw [← step] at ho ⊢
                obtain ⟨n2, g4, g5⟩ := g2 ho
                exact ⟨n2, g4, by simpa using g5⟩
              · intro he
                rw [← step] at he ⊢
                obtain ⟨n2, g4, g5⟩ := g3 he
                exact ⟨n2, g4, by simpa using g5⟩

theorem sample_row0 (tree : MerkleTree) (row0 : List Node)
    (hb : NewTree sampleEnv threeBlocks = .ok tree) (hrow0 : tree.rows[0]? = some row0) :
    row0 = leafRow sampleEnv threeBlocks := by
  have := NewTree_row0 sampleEnv threeBlocks (by decide) tree hb
  rw [hrow0] at this
  exact Option.some.inj this

/-- C7 on three sample blocks: the digest of an absent block gives the error,
the digest of the first block does not. -/
theorem C7_leaf_not_found_witness :
    ∃ tree, NewTree sampleEnv threeBlocks = .ok tree ∧
      GetProofs tree (HashData sampleEnv [7]) = .ok (none, some "Leaf not found") ∧
      GetProofs tree (HashData sampleEnv [1]) ≠ .ok (none, some "Leaf not found") := by
  obtain ⟨tree, row0, hb, hrow0, hall⟩ := C7_leaf_not_found sampleEnv threeBlocks (by decide)
  have e := sample_row0 tree row0 hb hrow0
  subst e
  exact ⟨tree, hb, (hall _).1 (by decide),
    (hall _).2 ⟨NewLeaf sampleEnv [1], by decide, rfl⟩ none _⟩

/-! ## The sample trees -/

theorem NewTree_threeBlocks : NewTree sampleEnv threeBlocks = .ok sampleTree3 :=
  rfl

theorem NewTree_fiveBlocks : NewTree sampleEnv fiveBlocks = .ok sampleTree5 :=
  rfl

theorem eq_sampleTree3 (tree : MerkleTree) (hb : NewTree sampleEnv threeBlocks = .ok tree) :
    tree = sampleTree3 := by
  rw [NewTree_threeBlocks] at hb
  cases hb
  rfl

theorem eq_sampleTree5 (tree : MerkleTree) (hb : NewTree sampleEnv fiveBlocks = .ok tree) :
    tree = sampleTree5 := by
  rw [NewTree_fiveBlocks] at hb
  cases hb
  rfl

/-- C2 on three sample blocks: the proof of the first block replays to the
root, and the same proof with its first direction flipped does not. -/
theorem C2_verification_replay_witness :
    NewTree sampleEnv threeBlocks = .ok sampleTree3 ∧
      VerifyProofs sampleEnv sampleTree3 sampleProof3 (sampleDigest 1) = .ok true ∧
      VerifyProofs sampleEnv sampleTree3
        [{ direction := Left, hash := sampleDigest 2 },
         { direction := Right, hash := MergeHash sampleEnv (sampleDigest 3) (sampleDigest 3) }]
        (sampleDigest 1) = .ok false := by
  obtain ⟨tree, row0, hb, hrow0, hall⟩ :=
    C2_verification_replay sampleEnv threeBlocks (by decide)
  have e := sample_row0 tree row0 hb hrow0
  have et := eq_sampleTree3 tree hb
  subst e et
  refine ⟨hb, ?_, ?_⟩
  · rw [hall (sampleDigest 1) sampleProof3 ⟨sampleLeaf 1, by decide, rfl⟩ (by decide)]
    exact congrArg Except.ok (decide_eq_true (by decide!))
  · rw [hall (sampleDigest 1) _ ⟨sampleLeaf 1, by decide, rfl⟩ (by decide)]
    exact congrArg Except.ok (decide_eq_false (by decide!))

/-- C8 on three sample blocks: the proof of the first block is rejected for the
digest of an absent block. -/
theorem C8_absent_leaf_rejected_witness :
    NewTree sampleEnv threeBlocks = .ok sampleTree3 ∧
      VerifyProofs sampleEnv sampleTree3 sampleProof3 (sampleDigest 7) = .ok false := by
  obtain ⟨tree, row0, hb, hrow0, hall⟩ :=
    C8_absent_leaf_rejected sampleEnv threeBlocks (by decide)
  have e := sample_row0 tree row0 hb hrow0
  have et := eq_sampleTree3 tree hb
  subst e et
  exact ⟨hb, hall (sampleDigest 7) (by decide) sampleProof3⟩

/-- C3. For a tree built by `NewTree` from a non-empty list, a digest `h` whose
first row-0 index is `i0`, and `i_k = i0 / 2 ^ k`: whenever `GetProofs` returns
a proof, it has `len(rows) - 1` entries, and its `k`-th entry is Left with the
digest of `rows[k][i_k - 1]` when `i_k` is odd and Right with the digest of
`rows[k][i_k + 1]` when `i_k` is even. -/
theorem C3_proof_contents (E : Env) (blocks : List Data) (hne : blocks ≠ []) :
    ∃ tree row0, NewTree E blocks = .ok tree ∧ tree.rows[0]? = some row0 ∧
      ∀ (h : Hash) (i0 : Nat) (proofs : List Proof) (err : Option String),
        IsFirstIndex row0 h i0 → GetProofs tree h = .ok (some proofs, err) →
        proofs.length = tree.rows.length - 1 ∧
        ∀ k, k < proofs.length → ∃ row, tree.rows[k]? = some row ∧
          ((i0 / 2 ^ k) % 2 = 1 →
            ∃ node, row[i0 / 2 ^ k - 1]? = some node ∧
              proofs[k]? = some { direction := Left, hash := node.Hash }) ∧
          ((i0 / 2 ^ k) % 2 = 0 →
            ∃ node, row[i0 / 2 ^ k + 1]? = some node ∧
              proofs[k]? = some { direction := Right, hash := node.Hash }) := by
  obtain ⟨root, hb, _⟩ := NewTree_eq E blocks hne
  have hrow0 := NewTree_row0 E blocks hne _ hb
  refine ⟨_, _, hb, hrow0, ?_⟩
  intro h i0 proofs err hfirst hget
  unfold GetProofs at hget
  rw [getLeafIndex_first _ _ h i0 hrow0 hfirst, ok_bind, if_neg (neg_one_ne_natCast i0)] at hget
  cases hloop : proofLoop _ (_ - 1) 0 (i0 : Int) [] with
  | error p =>
    rw [hloop] at hget
    cases hget
  | ok ps =>
    rw [hloop] at hget
    have hps : ps = proofs := by
      have : (Except.ok (some ps, none) : Except Panic (Option (List Proof) × Option String)) =
          Except.ok (some proofs, err) := hget
      cases this
      rfl
    subst hps
    have hloop2 : proofLoop _ (_ - 1) ((0 : Nat) : Int) (i0 : Int) [] = .ok ps := hloop
    obtain ⟨new, h1, h2, h3⟩ := proofLoop_ok _ _ 0 i0 [] ps hloop2
    rw [List.nil_append] at h1
    subst h1
    refine ⟨h2, ?_⟩
    intro k hk
    obtain ⟨row, g1, g2, g3⟩ := h3 k (by omega)
    rw [Nat.zero_add] at g1
    exact ⟨row, g1, g2, g3⟩

/-- C3 on three sample blocks and the digest of the second block, whose first
index is 1: the proof is the first leaf on the left, then the second node of
row 1 on the right. -/
theorem C3_proof_contents_witness :
    NewTree sampleEnv threeBlocks = .ok sampleTree3 ∧
      IsFirstIndex [sampleLeaf 1, sampleLeaf 2, sampleLeaf 3, sampleLeaf 3] (sampleDigest 2) 1 ∧
      GetProofs sampleTree3 (sampleDigest 2) = .ok (some
        [{ direction := Left, hash := sampleDigest 1 },
         { direction := Right, hash := MergeHash sampleEnv (sampleDigest 3) (sampleDigest 3) }],
        none) ∧
      ∃ node0 node1, sampleTree3.rows[0]? >>= (fun row => row[1 - 1]?) = some node0 ∧
        sampleTree3.rows[1]? >>= (fun row => row[1 / 2 + 1]?) = some node1 ∧
        node0.Hash = sampleDigest 1 ∧
        node1.Hash = MergeHash sampleEnv (sampleDigest 3) (sampleDigest 3) := by
  obtain ⟨tree, row0, hb, hrow0, hall⟩ := C3_proof_contents sampleEnv threeBlocks (by decide)
  have e := sample_row0 tree row0 hb hrow0
  have et := eq_sampleTree3 tree hb
  subst e et
  have hfirst : IsFirstIndex (leafRow sampleEnv threeBlocks) (sampleDigest 2) 1 := by
    refine ⟨⟨sampleLeaf 2, rfl, rfl⟩, ?_⟩
    intro j node hj hnode
    have hj0 : j = 0 := by omega
    subst hj0
    have : node = sampleLeaf 1 := (Option.some.inj hnode).symm
    subst this
    decide
  have hget : GetProofs sampleTree3 (sampleDigest 2) = .ok (some
      [{ direction := Left, hash := sampleDigest 1 },
       { direction := Right, hash := MergeHash sampleEnv (sampleDigest 3) (sampleDigest 3) }],
      none) := rfl
  obtain ⟨_, hentries⟩ := hall (sampleDigest 2) 1 _ none hfirst hget
  obtain ⟨r0, hr0, hl0, _⟩ := hentries 0 (by decide)
  obtain ⟨r1, hr1, _, hrt1⟩ := hentries 1 (by decide)
  obtain ⟨n0, hn0, hp0⟩ := hl0 (by decide)
  obtain ⟨n1, hn1, hp1⟩ := hrt1 (by decide)
  refine ⟨hb, hfirst, hget, n0, n1, ?_, ?_, ?_, ?_⟩
  · rw [hr0]; exact hn0
  · rw [hr1]; exact hn1
  · have := Option.some.inj hp0
    exact (congrArg Proof.hash this).symm
  · have := Option.some.inj hp1
    exact (congrArg Proof.hash this).symm

/-! ## Small trees written out -/

theorem NewTree_five (E : Env) (a b c d e : Data) :
    NewTree E [a, b, c, d, e] = .ok (treeOfFive E a b c d e) := by
  have hlen : [a, b, c, d, e].length = 5 := rfl
  have h1 : depthOf E 5 = 4 := rfl
  have h2 : makeRows 4 = .ok [[], [], [], []] := rfl
  have h3 : leafLoop E [a, b, c, d, e] [[], [], [], []] =
      .ok [[NewLeaf E a, NewLeaf E b, NewLeaf E c, NewLeaf E d, NewLeaf E e], [], [], []] := rfl
  have h4 : duplicateOddLeaf ((5 : Nat) : Int)
      [[NewLeaf E a, NewLeaf E b, NewLeaf E c, NewLeaf E d, NewLeaf E e], [], [], []] =
      .ok [[NewLeaf E a, NewLeaf E b, NewLeaf E c, NewLeaf E d, NewLeaf E e, NewLeaf E e],
        [], [], []] := rfl
  have h5 : rowLoop E ((4 : Int) - 1).toNat 1
      [[NewLeaf E a, NewLeaf E b, NewLeaf E c, NewLeaf E d, NewLeaf E e, NewLeaf E e],
        [], [], []] = .ok (treeOfFive E a b c d e).rows := rfl
  have h6 : elemAt (treeOfFive E a b c d e).rows ((4 : Int) - 1) =
      .ok [(treeOfFive E a b c d e).root] := rfl
  have h7 : elemAt [(treeOfFive E a b c d e).root] 0 = .ok (treeOfFive E a b c d e).root := rfl
  simp only [NewTree, hlen]
  rw [h1, h2, ok_bind, h3, ok_bind, h4, ok_bind, h5, ok_bind, h6, ok_bind, h7, ok_bind]
  rfl

theorem NewTree_three (E : Env) (a b c : Data) :
    NewTree E [a, b, c] = .ok (treeOfThree E a b c) := by
  have hlen : [a, b, c].length = 3 := rfl
  have h1 : depthOf E 3 = 3 := rfl
  have h2 : makeRows 3 = .ok [[], [], []] := rfl
  have h3 : leafLoop E [a, b, c] [[], [], []] =
      .ok [[NewLeaf E a, NewLeaf E b, NewLeaf E c], [], []] := rfl
  have h4 : duplicateOddLeaf ((3 : Nat) : Int)
      [[NewLeaf E a, NewLeaf E b, NewLeaf E c], [], []] =
      .ok [[NewLeaf E a, NewLeaf E b, NewLeaf E c, NewLeaf E c], [], []] := rfl
  have h5 : rowLoop E ((3 : Int) - 1).toNat 1
      [[NewLeaf E a, NewLeaf E b, NewLeaf E c, NewLeaf E c], [], []] =
      .ok (treeOfThree E a b c).rows := rfl
  have h6 : elemAt (treeOfThree E a b c).rows ((3 : Int) - 1) =
      .ok [(treeOfThree E a b c).root] := rfl
  have h7 : elemAt [(treeOfThree E a b c).root] 0 = .ok (treeOfThree E a b c).root := rfl
  simp only [NewTree, hlen]
  rw [h1, h2, ok_bind, h3, ok_bind, h4, ok_bind, h5, ok_bind, h6, ok_bind, h7, ok_bind]
  rfl

/-! ## Proof generation on a row of odd length -/

/-- C1 (failing input). On five blocks whose last digest differs from the first
four, `NewTree` returns a tree, the last block's digest is in row 0, and
`GetProofs` on it faults: at row 1, which has three nodes, the index is 2 and
the sibling index 3 is out of range. -/
theorem C1_round_trip_fault (E : Env) (a b c d e : Data)
    (ha : HashData E a ≠ HashData E e) (hb : HashData E b ≠ HashData E e)
    (hc : HashData E c ≠ HashData E e) (hd : HashData E d ≠ HashData E e) :
    ∃ tree row0 row1, NewTree E [a, b, c, d, e] = .ok tree ∧
      tree.rows[0]? = some row0 ∧ HashData E e ∈ rowHashes row0 ∧
      tree.rows[1]? = some row1 ∧ row1.length = 3 ∧
      GetProofs tree (HashData E e) = .error .indexOutOfRange := by
  refine ⟨treeOfFive E a b c d e,
    [NewLeaf E a, NewLeaf E b, NewLeaf E c, NewLeaf E d, NewLeaf E e, NewLeaf E e], _,
    NewTree_five E a b c d e, rfl, ?_, rfl, rfl, ?_⟩
  · exact List.mem_map.2 ⟨NewLeaf E e, by simp, rfl⟩
  · have hfirst : IsFirstIndex
        [NewLeaf E a, NewLeaf E b, NewLeaf E c, NewLeaf E d, NewLeaf E e, NewLeaf E e]
        (HashData E e) 4 := by
      refine ⟨⟨NewLeaf E e, rfl, rfl⟩, ?_⟩
      intro j node hj hnode
      have hcases : j = 0 ∨ j = 1 ∨ j = 2 ∨ j = 3 := by omega
      rcases hcases with h0 | h0 | h0 | h0 <;> subst h0 <;>
        (have hn := (Option.some.inj hnode).symm; subst hn)
      · exact ha
      · exact hb
      · exact hc
      · exact hd
    unfold GetProofs
    rw [getLeafIndex_first (treeOfFive E a b c d e) _ (HashData E e) 4 rfl hfirst, ok_bind,
      if_neg (neg_one_ne_natCast 4)]
    rfl

/-- C1 on the five sample blocks: `GetProofs` on the digest of the fifth block
faults with an index out of range. -/
theorem C1_round_trip_fault_witness :
    NewTree sampleEnv fiveBlocks = .ok sampleTree5 ∧
      sampleDigest 5 ∈ (sampleTree5.rows.head?.getD []).map Node.Hash ∧
      GetProofs sampleTree5 (sampleDigest 5) = .error .indexOutOfRange := by
  obtain ⟨tree, row0, row1, hb, hrow0, hmem, _, _, hget⟩ :=
    C1_round_trip_fault sampleEnv [1] [2] [3] [4] [5]
      (by decide) (by decide) (by decide) (by decide)
  have et := eq_sampleTree5 tree hb
  subst et
  have e0 : row0 = sampleTree5.rows.head?.getD [] := (Option.some.inj hrow0).symm
  subst e0
  exact ⟨hb, hmem, hget⟩

/-! ## The empty input -/

theorem elemAt_error {α : Type} (xs : List α) (i : Int) (p : Panic)
    (h : elemAt xs i = .error p) : p = .indexOutOfRange := by
  unfold elemAt at h
  split at h
  · cases h; rfl
  · split at h
    · cases h
    · cases h; rfl

theorem elemAt_mem {α : Type} (xs : List α) (i : Int) (x : α)
    (h : elemAt xs i = .ok x) : x ∈ xs :=
  List.getElem?_mem (elemAt_eq_ok h).2

theorem rowLoop_empty (E : Env) (k : Nat) :
    ∀ (i : Int) (rows : List (List Node)), (∀ r ∈ rows, r = []) →
      rowLoop E k i rows = .ok rows ∨ rowLoop E k i rows = .error .indexOutOfRange := by
  induction k with
  | zero =>
    intro i rows _
    exact Or.inl rfl
  | succ k ih =>
    intro i rows hall
    rw [rowLoop]
    cases hprev : elemAt rows (i - 1) with
    | error p =>
      rw [error_bind, elemAt_error _ _ p hprev]
      exact Or.inr rfl
    | ok prev =>
      rw [ok_bind, hall prev (elemAt_mem _ _ _ hprev)]
      exact ih (i + 1) rows hall

/-- C9 (failing input). On the empty list `NewTree` returns neither a tree nor
an error value: it faults, in `make` when the converted depth is negative and
at `rows[depth-1][0]` otherwise, whatever value the conversion of `-Inf` has. -/
theorem C9_empty_input_faults (E : Env) :
    NewTree E [] = .error
      (if E.negInfToInt < 0 then Panic.makeSliceLenOutOfRange else Panic.indexOutOfRange) := by
  simp only [NewTree]
  have hdepth : depthOf E ([] : List Data).length = E.negInfToInt := rfl
  rw [hdepth]
  unfold makeRows
  by_cases hneg : E.negInfToInt < 0
  · rw [if_pos hneg, if_pos hneg]
    rfl
  · rw [if_neg hneg, if_neg hneg, ok_bind]
    have hleaf : leafLoop E [] (List.replicate E.negInfToInt.toNat ([] : List Node)) =
        .ok (List.replicate E.negInfToInt.toNat []) := rfl
    rw [hleaf, ok_bind]
    have hdup : duplicateOddLeaf ((([] : List Data).length : Nat) : Int)
        (List.replicate E.negInfToInt.toNat ([] : List Node)) =
        .ok (List.replicate E.negInfToInt.toNat []) := rfl
    rw [hdup, ok_bind]
    have hall : ∀ r ∈ List.replicate E.negInfToInt.toNat ([] : List Node), r = [] := by
      intro r hr
      exact (List.mem_replicate.1 hr).2
    rcases rowLoop_empty E (E.negInfToInt - 1).toNat 1 _ hall with hok | herr
    · rw [hok, ok_bind]
      cases hlast : elemAt (List.replicate E.negInfToInt.toNat ([] : List Node))
          (E.negInfToInt - 1) with
      | error p =>
        rw [error_bind, elemAt_error _ _ p hlast]
      | ok lastRow =>
        rw [ok_bind, hall lastRow (elemAt_mem _ _ _ hlast)]
        rfl
    · rw [herr, error_bind]

/-! ## Parity of the row lengths -/

theorem halfUp_even_chain (c : Nat) :
    ∀ m : Nat, (∀ r, r < c → halfUp^[r] m % 2 = 0) → m = 2 ^ c * halfUp^[c] m := by
  induction c with
  | zero => intro m _; simp
  | succ c ih =>
    intro m hall
    have h0 : m % 2 = 0 := hall 0 (by omega)
    have hhalf : m = 2 * halfUp m := by
      unfold halfUp
      omega
    have hrest : ∀ r, r < c → halfUp^[r] (halfUp m) % 2 = 0 := by
      intro r hr
      have := hall (r + 1) (by omega)
      rwa [Function.iterate_succ_apply] at this
    have hih := ih (halfUp m) hrest
    rw [Function.iterate_succ_apply, pow_succ]
    have hring : 2 ^ c * 2 * halfUp^[c] (halfUp m) = 2 * (2 ^ c * halfUp^[c] (halfUp m)) := by
      ring
    rw [hring, ← hih]
    exact hhalf

theorem iterate_halfUp_pow (r : Nat) : ∀ k : Nat, r ≤ k → halfUp^[r] (2 ^ k) = 2 ^ (k - r) := by
  induction r with
  | zero => intro k _; rfl
  | succ r ih =>
    intro k hk
    obtain ⟨j, rfl⟩ : ∃ j, k = j + 1 := ⟨k - 1, by omega⟩
    have hstep : halfUp (2 ^ (j + 1)) = 2 ^ j := by
      unfold halfUp
      rw [pow_succ]
      omega
    rw [Function.iterate_succ_apply, hstep, ih j (by omega)]
    congr 1
    omega

theorem ceilLog2_pow (k : Nat) : ceilLog2 (2 ^ k) = k := by
  rw [ceilLog2_eq_clog]
  exact Nat.clog_pow 2 k (by decide)

/-- C10 (counterexample). The tree of the five sample blocks has four rows, and
its row 1, which is not the root row, has three nodes. -/
theorem C10_even_rows_counterexample :
    NewTree sampleEnv fiveBlocks = .ok sampleTree5 ∧ sampleTree5.rows.length = 4 ∧
      (sampleTree5.rows[1]?).map List.length = some 3 ∧ 3 % 2 = 1 :=
  ⟨NewTree_five sampleEnv [1] [2] [3] [4] [5], rfl, rfl, rfl⟩

/-- C10 (amended). In the tree built by `NewTree` from `n ≥ 1` blocks, row 0 has
even length, and every stored row other than the root row has even length if
and only if `n + n % 2` is a power of two. -/
theorem C10_even_rows_amended (E : Env) (blocks : List Data) (hne : blocks ≠ []) :
    ∃ tree row0, NewTree E blocks = .ok tree ∧ tree.rows[0]? = some row0 ∧
      row0.length % 2 = 0 ∧
      ((∀ (r : Nat) (row : List Node), r + 1 < tree.rows.length →
          tree.rows[r]? = some row → row.length % 2 = 0) ↔
        ∃ k, blocks.length + blocks.length % 2 = 2 ^ k) := by
  have hpos : 1 ≤ blocks.length := List.length_pos.2 hne
  obtain ⟨root, hb, _⟩ := NewTree_eq E blocks hne
  have hrow0 := NewTree_row0 E blocks hne _ hb
  have hlenrows : (levels E (ceilLog2 (blocks.length + blocks.length % 2) + 1)
      (leafRow E blocks)).length = ceilLog2 (blocks.length + blocks.length % 2) + 1 :=
    levels_length E _ _
  have hrowlen : ∀ r, ((pairUp E)^[r] (leafRow E blocks)).length =
      halfUp^[r] (blocks.length + blocks.length % 2) := by
    intro r
    rw [iterate_pairUp_length, leafRow_length E blocks hne]
  refine ⟨_, _, hb, hrow0, ?_, ?_, ?_⟩
  · rw [leafRow_length E blocks hne]
    omega
  · intro hall
    refine ⟨ceilLog2 (blocks.length + blocks.length % 2), ?_⟩
    have hchain := halfUp_even_chain (ceilLog2 (blocks.length + blocks.length % 2))
      (blocks.length + blocks.length % 2) (by
        intro r hr
        rw [← hrowlen r]
        apply hall r _ _ (levels_getElem? E _ _ r (by omega))
        show r + 1 < (levels E _ _).length
        rw [hlenrows]
        omega)
    rw [iterate_halfUp_ceilLog2 _ (by omega), Nat.mul_one] at hchain
    exact hchain
  · rintro ⟨k, hk⟩ r row hr hrow
    have hr2 : r + 1 < (levels E (ceilLog2 (blocks.length + blocks.length % 2) + 1)
        (leafRow E blocks)).length := hr
    rw [hlenrows] at hr2
    obtain ⟨_, e⟩ := NewTree_row E blocks hne _ hb r row hrow
    rw [e, hrowlen r, hk]
    rw [hk, ceilLog2_pow] at hr2
    rw [iterate_halfUp_pow r k (by omega)]
    obtain ⟨j, hj⟩ : ∃ j, k - r = j + 1 := ⟨k - r - 1, by omega⟩
    rw [hj, pow_succ]
    omega

/-- C10 (amended) on three sample blocks, where `n + n % 2 = 4`: rows 0 and 1
have even length. -/
theorem C10_even_rows_amended_witness :
    NewTree sampleEnv threeBlocks = .ok sampleTree3 ∧
      sampleTree3.rows.map List.length = [4, 2, 1] ∧
      ∃ row0 row1, sampleTree3.rows[0]? = some row0 ∧ sampleTree3.rows[1]? = some row1 ∧
        row0.length % 2 = 0 ∧ row1.length % 2 = 0 := by
  obtain ⟨tree, row0, hb, hrow0, hev0, hiff⟩ :=
    C10_even_rows_amended sampleEnv threeBlocks (by decide)
  have et := eq_sampleTree3 tree hb
  subst et
  have hall := hiff.2 ⟨2, rfl⟩
  exact ⟨hb, rfl, row0, _, hrow0, rfl, hev0, hall 1 _ (by decide) rfl⟩

/-! ## Branch combination -/

theorem foldl_append_singleton {α : Type} (xs : List α) :
    ∀ acc : List α, xs.foldl (fun c x => c ++ [x]) acc = acc ++ xs := by
  induction xs with
  | nil => intro acc; simp
  | cons x xs ih =>
    intro acc
    rw [List.foldl_cons, ih]
    simp

theorem MergeHash_eq (E : Env) (a b : Hash) : MergeHash E a b = HashData E (a.val ++ b.val) := by
  unfold MergeHash
  simp only [foldl_append_singleton, List.nil_append]

/-- C15. For all digests `a` and `b`, `MergeHash a b` is `HashData` of the 64
bytes formed by the 32 bytes of `a` followed by the 32 bytes of `b`; that byte
string equals the one with the operands exchanged only when `a = b`; and the
cached digest of `NewBranch l r` is `MergeHash` of the digest of `l` and the
digest of `r`, in that order. -/
theorem C15_branch_combination (E : Env) (a b : Hash) (l r : Node) :
    MergeHash E a b = HashData E (a.val ++ b.val) ∧
      (a.val ++ b.val).length = 64 ∧
      (a.val ++ b.val).take 32 = a.val ∧ (a.val ++ b.val).drop 32 = b.val ∧
      (a.val ++ b.val = b.val ++ a.val ↔ a = b) ∧
      (NewBranch E l r).Hash = MergeHash E l.Hash r.Hash := by
  have ha := a.property
  have hb := b.property
  refine ⟨MergeHash_eq E a b, ?_, ?_, ?_, ?_, rfl⟩
  · rw [List.length_append, ha, hb]
  · simp [List.take_append_eq_append_take, ha]
  · simp [List.drop_append_eq_append_drop, ha]
  · constructor
    · intro h
      have := List.append_inj_left h (by rw [ha, hb])
      exact Subtype.ext this
    · intro h
      rw [h]

/-! ## The single-block and three-block scenarios -/

theorem NewTree_one (E : Env) (a : Data) : NewTree E [a] = .ok (treeOfOne E a) := by
  have hlen : [a].length = 1 := rfl
  have h1 : depthOf E 1 = 2 := rfl
  have h2 : makeRows 2 = .ok [[], []] := rfl
  have h3 : leafLoop E [a] [[], []] = .ok [[NewLeaf E a], []] := rfl
  have h4 : duplicateOddLeaf ((1 : Nat) : Int) [[NewLeaf E a], []] =
      .ok [[NewLeaf E a, NewLeaf E a], []] := rfl
  have h5 : rowLoop E ((2 : Int) - 1).toNat 1 [[NewLeaf E a, NewLeaf E a], []] =
      .ok (treeOfOne E a).rows := rfl
  have h6 : elemAt (treeOfOne E a).rows ((2 : Int) - 1) = .ok [(treeOfOne E a).root] := rfl
  have h7 : elemAt [(treeOfOne E a).root] 0 = .ok (treeOfOne E a).root := rfl
  simp only [NewTree, hlen]
  rw [h1, h2, ok_bind, h3, ok_bind, h4, ok_bind, h5, ok_bind, h6, ok_bind, h7, ok_bind]
  rfl

theorem isFirstIndex_zero (node : Node) (rest : List Node) :
    IsFirstIndex (node :: rest) node.Hash 0 := by
  refine ⟨⟨node, by simp, rfl⟩, ?_⟩
  intro j n hj
  omega

theorem right_ne_left : ¬ (Right = Left) := by
  decide

theorem verifyStep_right (E : Env) (running sibling : Hash) :
    verifyStep E running { direction := Right, hash := sibling } = MergeHash E running sibling := by
  unfold verifyStep
  rw [if_neg right_ne_left]

theorem verifyStep_left (E : Env) (running sibling : Hash) :
    verifyStep E running { direction := Left, hash := sibling } = MergeHash E sibling running := by
  unfold verifyStep
  rw [if_pos rfl]

/-- C14. For any single block `a`, `NewTree [a]` has exactly two rows, row 0
with digests `[H a, H a]` and a root row whose sole digest is
`MergeHash (H a) (H a)`; `GetProofs (H a)` returns exactly `[(Right, H a)]`
with no error, and `VerifyProofs` of that proof with `H a` returns true. -/
theorem C14_single_block_scenario (E : Env) (a : Data) :
    ∃ tree, NewTree E [a] = .ok tree ∧ tree.rows.length = 2 ∧
      tree.rows.map rowHashes =
        [[HashData E a, HashData E a], [MergeHash E (HashData E a) (HashData E a)]] ∧
      tree.root.Hash = MergeHash E (HashData E a) (HashData E a) ∧
      GetProofs tree (HashData E a) =
        .ok (some [{ direction := Right, hash := HashData E a }], none) ∧
      VerifyProofs E tree [{ direction := Right, hash := HashData E a }] (HashData E a) =
        .ok true := by
  have hfirst : IsFirstIndex [NewLeaf E a, NewLeaf E a] (HashData E a) 0 :=
    isFirstIndex_zero (NewLeaf E a) [NewLeaf E a]
  have hidx := getLeafIndex_first (treeOfOne E a) _ (HashData E a) 0 rfl hfirst
  refine ⟨treeOfOne E a, NewTree_one E a, rfl, rfl, rfl, ?_, ?_⟩
  · unfold GetProofs
    rw [hidx, ok_bind, if_neg (neg_one_ne_natCast 0)]
    rfl
  · unfold VerifyProofs
    rw [hidx, ok_bind, if_neg (neg_one_ne_natCast 0)]
    have hrun : List.foldl (verifyStep E) (HashData E a)
        [{ direction := Right, hash := HashData E a }] = (treeOfOne E a).root.Hash := by
      rw [List.foldl_cons, List.foldl_nil, verifyStep_right]
      rfl
    exact congrArg Except.ok (decide_eq_true hrun)

/-- C13. For any three blocks `a`, `b`, `c`, `NewTree [a, b, c]` has exactly
three rows, with digests `[H a, H b, H c, H c]`, then
`[MergeHash (H a) (H b), MergeHash (H c) (H c)]`, then the root digest
`MergeHash` of the two digests of row 1; `GetProofs (H a)` returns exactly
`[(Right, H b), (Right, row1[1])]` with no error; `VerifyProofs` of that proof
is true with `H a` and false with any digest that is not a row-0 digest. -/
theorem C13_three_block_scenario (E : Env) (a b c : Data) :
    ∃ tree, NewTree E [a, b, c] = .ok tree ∧ tree.rows.length = 3 ∧
      tree.rows.map rowHashes =
        [[HashData E a, HashData E b, HashData E c, HashData E c],
         [MergeHash E (HashData E a) (HashData E b), MergeHash E (HashData E c) (HashData E c)],
         [MergeHash E (MergeHash E (HashData E a) (HashData E b))
            (MergeHash E (HashData E c) (HashData E c))]] ∧
      tree.root.Hash = MergeHash E (MergeHash E (HashData E a) (HashData E b))
        (MergeHash E (HashData E c) (HashData E c)) ∧
      GetProofs tree (HashData E a) =
        .ok (some [{ direction := Right, hash := HashData E b },
          { direction := Right, hash := MergeHash E (HashData E c) (HashData E c) }], none) ∧
      VerifyProofs E tree [{ direction := Right, hash := HashData E b },
          { direction := Right, hash := MergeHash E (HashData E c) (HashData E c) }]
        (HashData E a) = .ok true ∧
      ∀ x : Hash, x ∉ [HashData E a, HashData E b, HashData E c, HashData E c] →
        VerifyProofs E tree [{ direction := Right, hash := HashData E b },
          { direction := Right, hash := MergeHash E (HashData E c) (HashData E c) }] x =
          .ok false := by
  have hfirst : IsFirstIndex [NewLeaf E a, NewLeaf E b, NewLeaf E c, NewLeaf E c]
      (HashData E a) 0 := isFirstIndex_zero (NewLeaf E a) _
  have hidx := getLeafIndex_first (treeOfThree E a b c) _ (HashData E a) 0 rfl hfirst
  refine ⟨treeOfThree E a b c, NewTree_three E a b c, rfl, rfl, rfl, ?_, ?_, ?_⟩
  · unfold GetProofs
    rw [hidx, ok_bind, if_neg (neg_one_ne_natCast 0)]
    rfl
  · unfold VerifyProofs
    rw [hidx, ok_bind, if_neg (neg_one_ne_natCast 0)]
    have hrun : List.foldl (verifyStep E) (HashData E a)
        [{ direction := Right, hash := HashData E b },
          { direction := Right, hash := MergeHash E (HashData E c) (HashData E c) }] =
        (treeOfThree E a b c).root.Hash := by
      rw [List.foldl_cons, List.foldl_cons, List.foldl_nil, verifyStep_right, verifyStep_right]
      rfl
    exact congrArg Except.ok (decide_eq_true hrun)
  · intro x hx
    have habs : ∀ node ∈ [NewLeaf E a, NewLeaf E b, NewLeaf E c, NewLeaf E c], node.Hash ≠ x := by
      intro node hnode hcontra
      apply hx
      rw [← hcontra]
      simp only [List.mem_cons, List.mem_singleton, List.not_mem_nil, or_false] at hnode ⊢
      rcases hnode with h | h | h | h <;> subst h
      · exact Or.inl rfl
      · exact Or.inr (Or.inl rfl)
      · exact Or.inr (Or.inr (Or.inl rfl))
      · exact Or.inr (Or.inr (Or.inl rfl))
    unfold VerifyProofs
    rw [getLeafIndex_absent (treeOfThree E a b c) _ x rfl habs, ok_bind, if_pos rfl]
    rfl

/-- C13 on the three sample blocks, with the digest of an absent block as the
unrelated digest. -/
theorem C13_three_block_scenario_witness :
    NewTree sampleEnv threeBlocks = .ok sampleTree3 ∧
      GetProofs sampleTree3 (sampleDigest 1) = .ok (some sampleProof3, none) ∧
      VerifyProofs sampleEnv sampleTree3 sampleProof3 (sampleDigest 1) = .ok true ∧
      VerifyProofs sampleEnv sampleTree3 sampleProof3 (sampleDigest 7) = .ok false := by
  obtain ⟨tree, hb, _, _, _, hget, hver, hrej⟩ := C13_three_block_scenario sampleEnv [1] [2] [3]
  have et := eq_sampleTree3 tree hb
  subst et
  exact ⟨hb, hget, hver, hrej (sampleDigest 7) (by decide)⟩

/-! ## Duplication of the last block -/

theorem leafRow_append_last (E : Env) (blocks : List Data) (hne : blocks ≠ [])
    (hodd : blocks.length % 2 = 1) :
    leafRow E (blocks ++ [blocks.getLast hne]) = leafRow E blocks := by
  unfold leafRow
  have heven : ¬ ((blocks ++ [blocks.getLast hne]).length % 2 = 1) := by
    rw [List.length_append, List.length_singleton]
    omega
  rw [List.getLast?_eq_getLast blocks hne]
  simp only [List.getLast?_append, List.getLast?_singleton, heven, if_false,
    hodd, if_true, List.map_append, List.map_cons, List.map_nil]
  simp [Option.or]

/-- C18. For every list of blocks of odd length with last block `x`, `NewTree`
of the list and `NewTree` of the list followed by one more copy of `x` return
trees with the same number of rows, the same digests at every position of
every row, and the same root digest, although the second input is one block
longer. -/
theorem C18_duplication_shares_root (E : Env) (blocks : List Data) (hne : blocks ≠ [])
    (hodd : blocks.length % 2 = 1) :
    ∃ treeA treeB, NewTree E blocks = .ok treeA ∧
      NewTree E (blocks ++ [blocks.getLast hne]) = .ok treeB ∧
      treeA.rows.length = treeB.rows.length ∧
      treeA.rows.map rowHashes = treeB.rows.map rowHashes ∧
      treeA.root.Hash = treeB.root.Hash ∧
      (blocks ++ [blocks.getLast hne]).length = blocks.length + 1 := by
  obtain ⟨rootA, hA, hrootA⟩ := NewTree_eq E blocks hne
  obtain ⟨rootB, hB, hrootB⟩ := NewTree_eq E (blocks ++ [blocks.getLast hne]) (by simp)
  have hlen : (blocks ++ [blocks.getLast hne]).length +
      (blocks ++ [blocks.getLast hne]).length % 2 = blocks.length + blocks.length % 2 := by
    rw [List.length_append, List.length_singleton]
    omega
  rw [hlen, leafRow_append_last E blocks hne hodd] at hB hrootB
  have hroot : rootA = rootB := by
    rw [hrootA] at hrootB
    exact List.head_eq_of_cons_eq hrootB
  subst hroot
  exact ⟨_, _, hA, hB, rfl, rfl, rfl, by simp⟩

/-- C18 on the three sample blocks: the four blocks `1, 2, 3, 3` give the tree
of the three blocks `1, 2, 3`. -/
theorem C18_duplication_shares_root_witness :
    NewTree sampleEnv threeBlocks = .ok sampleTree3 ∧
      ∃ treeB, NewTree sampleEnv [[1], [2], [3], [3]] = .ok treeB ∧
        treeB.rows.map rowHashes = sampleTree3.rows.map rowHashes ∧
        treeB.root.Hash = sampleTree3.root.Hash := by
  obtain ⟨treeA, treeB, hA, hB, _, hrows, hroot, _⟩ :=
    C18_duplication_shares_root sampleEnv threeBlocks (by decide) (by decide)
  have et := eq_sampleTree3 treeA hA
  subst et
  exact ⟨hA, treeB, hB, hrows.symm, hroot.symm⟩

/-! ## Replaying a generated proof -/

theorem pairUp_getElem?_pair (E : Env) :
    ∀ (row : List Node) (q : Nat) (l r : Node), row[2 * q]? = some l → row[2 * q + 1]? = some r →
      (pairUp E row)[q]? = some (NewBranch E l r)
  | [], q, l, r, hl, _ => by simp at hl
  | [x], q, l, r, _, hr => by simp at hr
  | x :: y :: rest, q, l, r, hl, hr => by
    cases q with
    | zero =>
      simp only [Nat.mul_zero, List.getElem?_cons_zero, Option.some.injEq] at hl
      simp only [Nat.mul_zero, Nat.zero_add, List.getElem?_cons_succ, List.getElem?_cons_zero,
        Option.some.injEq] at hr
      subst hl hr
      simp [pairUp]
    | succ q =>
      have e1 : 2 * (q + 1) = (2 * q + 1) + 1 := by omega
      have e2 : 2 * (q + 1) + 1 = ((2 * q + 1) + 1) + 1 := by omega
      rw [e1, List.getElem?_cons_succ, List.getElem?_cons_succ] at hl
      rw [e2, List.getElem?_cons_succ, List.getElem?_cons_succ] at hr
      simp only [pairUp, List.getElem?_cons_succ]
      exact pairUp_getElem?_pair E rest q l r hl hr

theorem GetProofs_entries (tree : MerkleTree) (row0 : List Node) (h : Hash) (i0 : Nat)
    (proofs : List Proof) (err : Option String) (hrow0 : tree.rows[0]? = some row0)
    (hfirst : IsFirstIndex row0 h i0) (hget : GetProofs tree h = .ok (some proofs, err)) :
    proofs.length = tree.rows.length - 1 ∧
      ∀ k, k < proofs.length → ∃ row, tree.rows[k]? = some row ∧
        ((i0 / 2 ^ k) % 2 = 1 →
          ∃ node, row[i0 / 2 ^ k - 1]? = some node ∧
            proofs[k]? = some { direction := Left, hash := node.Hash }) ∧
        ((i0 / 2 ^ k) % 2 = 0 →
          ∃ node, row[i0 / 2 ^ k + 1]? = some node ∧
            proofs[k]? = some { direction := Right, hash := node.Hash }) := by
  unfold GetProofs at hget
  rw [getLeafIndex_first _ _ h i0 hrow0 hfirst, ok_bind, if_neg (neg_one_ne_natCast i0)] at hget
  cases hloop : proofLoop tree (tree.rows.length - 1) 0 (i0 : Int) [] with
  | error p =>
    rw [hloop] at hget
    cases hget
  | ok ps =>
    rw [hloop] at hget
    have hps : ps = proofs := by
      have : (Except.ok (some ps, none) : Except Panic (Option (List Proof) × Option String)) =
          Except.ok (some proofs, err) := hget
      cases this
      rfl
    subst hps
    have hloop2 : proofLoop tree (tree.rows.length - 1) ((0 : Nat) : Int) (i0 : Int) [] =
        .ok ps := hloop
    obtain ⟨new, h1, h2, h3⟩ := proofLoop_ok tree _ 0 i0 [] ps hloop2
    rw [List.nil_append] at h1
    subst h1
    refine ⟨h2, ?_⟩
    intro k hk
    obtain ⟨row, g1, g2, g3⟩ := h3 k (by omega)
    rw [Nat.zero_add] at g1
    exact ⟨row, g1, g2, g3⟩

theorem specReplay_take_succ (E : Env) (h : Hash) (proofs : List Proof) (k : Nat)
    (entry : Proof) (hk : proofs[k]? = some entry) :
    specReplay E h (proofs.take (k + 1)) =
      specReplayStep E (specReplay E h (proofs.take k)) entry := by
  unfold specReplay
  rw [List.take_succ, hk, List.foldl_append]
  rfl

theorem specReplayStep_left (E : Env) (running sibling : Hash) :
    specReplayStep E running { direction := Left, hash := sibling } =
      MergeHash E sibling running := by
  unfold specReplayStep
  rw [if_pos rfl]

theorem specReplayStep_right (E : Env) (running sibling : Hash) :
    specReplayStep E running { direction := Right, hash := sibling } =
      MergeHash E running sibling := by
  unfold specReplayStep
  rw [if_neg right_ne_left, if_pos rfl]

theorem replay_invariant (E : Env) (tree : MerkleTree) (row0 : List Node) (h : Hash) (i0 : Nat)
    (proofs : List Proof)
    (hpair : ∀ (k : Nat) (row next : List Node), tree.rows[k]? = some row →
      tree.rows[k + 1]? = some next → next = pairUp E row)
    (hrow0 : tree.rows[0]? = some row0) (hfirst : IsFirstIndex row0 h i0)
    (hlen : proofs.length = tree.rows.length - 1)
    (hentries : ∀ k, k < proofs.length → ∃ row, tree.rows[k]? = some row ∧
        ((i0 / 2 ^ k) % 2 = 1 →
          ∃ node, row[i0 / 2 ^ k - 1]? = some node ∧
            proofs[k]? = some { direction := Left, hash := node.Hash }) ∧
        ((i0 / 2 ^ k) % 2 = 0 →
          ∃ node, row[i0 / 2 ^ k + 1]? = some node ∧
            proofs[k]? = some { direction := Right, hash := node.Hash })) :
    ∀ k, k ≤ proofs.length → ∃ row node, tree.rows[k]? = some row ∧
      row[i0 / 2 ^ k]? = some node ∧ specReplay E h (proofs.take k) = node.Hash := by
  intro k
  induction k with
  | zero =>
    intro _
    obtain ⟨⟨node, hn, hh⟩, _⟩ := hfirst
    refine ⟨row0, node, hrow0, by simpa using hn, ?_⟩
    rw [List.take_zero, hh]
    rfl
  | succ k ih =>
    intro hk
    obtain ⟨row, node, hrow, hnode, hrun⟩ := ih (by omega)
    obtain ⟨row2, hrow2, hodd, heven⟩ := hentries k (by omega)
    have erow : row2 = row := by
      rw [hrow] at hrow2
      exact (Option.some.inj hrow2).symm
    subst erow
    have hlt : k + 1 < tree.rows.length := by omega
    obtain ⟨next, hnext⟩ : ∃ next, tree.rows[k + 1]? = some next :=
      ⟨_, List.getElem?_eq_getElem hlt⟩
    have enext := hpair k row2 next hrow hnext
    have hdiv : i0 / 2 ^ (k + 1) = i0 / 2 ^ k / 2 := by
      rw [Nat.div_div_eq_div_mul, pow_succ]
    rcases Nat.mod_two_eq_zero_or_one (i0 / 2 ^ k) with he | ho
    · obtain ⟨sib, hsib, hentry⟩ := heven he
      have e1 : i0 / 2 ^ k = 2 * (i0 / 2 ^ k / 2) := by omega
      have e2 : i0 / 2 ^ k + 1 = 2 * (i0 / 2 ^ k / 2) + 1 := by omega
      rw [e1] at hnode
      rw [e2] at hsib
      refine ⟨next, NewBranch E node sib, hnext, ?_, ?_⟩
      · rw [hdiv, enext]
        exact pairUp_getElem?_pair E row2 _ node sib hnode hsib
      · rw [specReplay_take_succ E h proofs k _ hentry, specReplayStep_right, hrun]
        rfl
    · obtain ⟨sib, hsib, hentry⟩ := hodd ho
      have e1 : i0 / 2 ^ k = 2 * (i0 / 2 ^ k / 2) + 1 := by omega
      have e2 : i0 / 2 ^ k - 1 = 2 * (i0 / 2 ^ k / 2) := by omega
      rw [e1] at hnode
      rw [e2] at hsib
      refine ⟨next, NewBranch E sib node, hnext, ?_, ?_⟩
      · rw [hdiv, enext]
        exact pairUp_getElem?_pair E row2 _ sib node hsib hnode
      · rw [specReplay_take_succ E h proofs k _ hentry, specReplayStep_left, hrun]
        rfl

theorem entries_directions (i0 : Nat) (rows : List (List Node)) (proofs : List Proof)
    (hentries : ∀ k, k < proofs.length → ∃ row, rows[k]? = some row ∧
        ((i0 / 2 ^ k) % 2 = 1 →
          ∃ node, row[i0 / 2 ^ k - 1]? = some node ∧
            proofs[k]? = some { direction := Left, hash := node.Hash }) ∧
        ((i0 / 2 ^ k) % 2 = 0 →
          ∃ node, row[i0 / 2 ^ k + 1]? = some node ∧
            proofs[k]? = some { direction := Right, hash := node.Hash })) :
    ∀ p ∈ proofs, p.direction = Left ∨ p.direction = Right := by
  intro p hp
  obtain ⟨k, hk, hpk⟩ := List.getElem_of_mem hp
  obtain ⟨row, _, hodd, heven⟩ := hentries k hk
  have hpk2 : proofs[k]? = some p := by
    rw [List.getElem?_eq_getElem hk, hpk]
  rcases Nat.mod_two_eq_zero_or_one (i0 / 2 ^ k) with he | ho
  · obtain ⟨sib, _, hentry⟩ := heven he
    rw [hpk2] at hentry
    rw [Option.some.inj hentry]
    exact Or.inr rfl
  · obtain ⟨sib, _, hentry⟩ := hodd ho
    rw [hpk2] at hentry
    rw [Option.some.inj hentry]
    exact Or.inl rfl

theorem NewTree_pairing (E : Env) (ds : List Data) (hne : ds ≠ []) (tree : MerkleTree)
    (hb : NewTree E ds = .ok tree) (k : Nat) (row next : List Node)
    (hrow : tree.rows[k]? = some row) (hnext : tree.rows[k + 1]? = some next) :
    next = pairUp E row := by
  obtain ⟨_, e1⟩ := NewTree_row E ds hne tree hb k row hrow
  obtain ⟨_, e2⟩ := NewTree_row E ds hne tree hb (k + 1) next hnext
  rw [e2, e1, Function.iterate_succ_apply']

/-- C16. For a tree built by `NewTree` from a non-empty list and a digest `h`
whose first row-0 index is `i0`: if `GetProofs` returns a proof, then for every
`k` up to its length the running digest after replaying its first `k` entries
from `h` is the digest of `rows[k][i0 / 2 ^ k]`, and `VerifyProofs` of that
proof with `h` returns true. -/
theorem C16_partial_correctness (E : Env) (blocks : List Data) (hne : blocks ≠ []) :
    ∃ tree row0, NewTree E blocks = .ok tree ∧ tree.rows[0]? = some row0 ∧
      ∀ (h : Hash) (i0 : Nat) (proofs : List Proof) (err : Option String),
        IsFirstIndex row0 h i0 → GetProofs tree h = .ok (some proofs, err) →
        (∀ k, k ≤ proofs.length → ∃ row node, tree.rows[k]? = some row ∧
          row[i0 / 2 ^ k]? = some node ∧ specReplay E h (proofs.take k) = node.Hash) ∧
        VerifyProofs E tree proofs h = .ok true := by
  obtain ⟨root, hb, hroot⟩ := NewTree_eq E blocks hne
  have hrow0 := NewTree_row0 E blocks hne _ hb
  refine ⟨_, _, hb, hrow0, ?_⟩
  intro h i0 proofs err hfirst hget
  obtain ⟨hlen, hentries⟩ := GetProofs_entries _ _ h i0 proofs err hrow0 hfirst hget
  have hinv := replay_invariant E _ _ h i0 proofs (NewTree_pairing E blocks hne _ hb)
    hrow0 hfirst hlen hentries
  refine ⟨hinv, ?_⟩
  obtain ⟨row, node, hrow, hnode, hrun⟩ := hinv proofs.length le_rfl
  have hrowsLen : (levels E (ceilLog2 (blocks.length + blocks.length % 2) + 1)
      (leafRow E blocks)).length = ceilLog2 (blocks.length + blocks.length % 2) + 1 :=
    levels_length E _ _
  have hlen2 : proofs.length = (levels E (ceilLog2 (blocks.length + blocks.length % 2) + 1)
      (leafRow E blocks)).length - 1 := hlen
  rw [hrowsLen, Nat.add_sub_cancel] at hlen2
  obtain ⟨_, erow⟩ := NewTree_row E blocks hne _ hb proofs.length row hrow
  rw [hlen2, hroot] at erow
  subst erow
  have enode : node = root := by
    cases hi : i0 / 2 ^ proofs.length with
    | zero =>
      rw [hi] at hnode
      exact (Option.some.inj hnode).symm
    | succ j =>
      rw [hi] at hnode
      simp at hnode
  subst enode
  rw [List.take_length] at hrun
  unfold VerifyProofs
  rw [getLeafIndex_first _ _ h i0 hrow0 hfirst, ok_bind, if_neg (neg_one_ne_natCast i0),
    foldl_verifyStep_eq E proofs h (entries_directions i0 _ proofs hentries)]
  exact congrArg Except.ok (decide_eq_true hrun)

/-- C16 on the three sample blocks and the digest of the second block: the
running digest is the digest of `rows[1][0]` after one entry and the root
digest after both, and the proof verifies. -/
theorem C16_partial_correctness_witness :
    NewTree sampleEnv threeBlocks = .ok sampleTree3 ∧
      GetProofs sampleTree3 (sampleDigest 2) = .ok (some
        [{ direction := Left, hash := sampleDigest 1 },
         { direction := Right, hash := MergeHash sampleEnv (sampleDigest 3) (sampleDigest 3) }],
        none) ∧
      specReplay sampleEnv (sampleDigest 2) [{ direction := Left, hash := sampleDigest 1 }] =
        MergeHash sampleEnv (sampleDigest 1) (sampleDigest 2) ∧
      VerifyProofs sampleEnv sampleTree3
        [{ direction := Left, hash := sampleDigest 1 },
         { direction := Right, hash := MergeHash sampleEnv (sampleDigest 3) (sampleDigest 3) }]
        (sampleDigest 2) = .ok true := by
  obtain ⟨tree, row0, hb, hrow0, hall⟩ := C16_partial_correctness sampleEnv threeBlocks (by decide)
  have e := sample_row0 tree row0 hb hrow0
  have et := eq_sampleTree3 tree hb
  subst e et
  have hfirst : IsFirstIndex (leafRow sampleEnv threeBlocks) (sampleDigest 2) 1 := by
    refine ⟨⟨sampleLeaf 2, rfl, rfl⟩, ?_⟩
    intro j node hj hnode
    have hj0 : j = 0 := by omega
    subst hj0
    have : node = sampleLeaf 1 := (Option.some.inj hnode).symm
    subst this
    decide
  have hget : GetProofs sampleTree3 (sampleDigest 2) = .ok (some
      [{ direction := Left, hash := sampleDigest 1 },
       { direction := Right, hash := MergeHash sampleEnv (sampleDigest 3) (sampleDigest 3) }],
      none) := rfl
  obtain ⟨hinv, hver⟩ := hall (sampleDigest 2) 1 _ none hfirst hget
  obtain ⟨row, node, hrow, hnode, hrun⟩ := hinv 1 (by decide)
  have erow : row = [NewBranch sampleEnv (sampleLeaf 1) (sampleLeaf 2),
      NewBranch sampleEnv (sampleLeaf 3) (sampleLeaf 3)] := (Option.some.inj hrow).symm
  subst erow
  have enode : node = NewBranch sampleEnv (sampleLeaf 1) (sampleLeaf 2) :=
    (Option.some.inj hnode).symm
  subst enode
  exact ⟨hb, hget, hrun, hver⟩

/-! ## Index safety on balanced sizes -/

theorem proofLoop_even (tree : MerkleTree) (k : Nat) :
    ∀ (i idx : Nat) (acc : List Proof),
      (∀ t, t < k → ∃ row, tree.rows[i + t]? = some row ∧ row.length % 2 = 0 ∧
        idx / 2 ^ t < row.length) →
      ∃ proofs, proofLoop tree k (i : Int) (idx : Int) acc = .ok proofs := by
  induction k with
  | zero =>
    intro i idx acc _
    exact ⟨acc, rfl⟩
  | succ k ih =>
    intro i idx acc hall
    obtain ⟨row, hrow, heven, hidx⟩ := hall 0 (by omega)
    rw [Nat.add_zero] at hrow
    rw [pow_zero, Nat.div_one] at hidx
    have hrowlt : i < tree.rows.length := (List.getElem?_eq_some_iff.1 hrow).1
    have hrowget : tree.rows[i] = row := (List.getElem?_eq_some_iff.1 hrow).2
    have hmod : Int.tmod (idx : Int) 2 = ((idx % 2 : Nat) : Int) := rfl
    have hdiv : Int.tdiv (idx : Int) 2 = ((idx / 2 : Nat) : Int) := rfl
    have hnext : (i : Int) + 1 = ((i + 1 : Nat) : Int) := by push_cast; rfl
    have hrest : ∀ t, t < k → ∃ row, tree.rows[i + 1 + t]? = some row ∧ row.length % 2 = 0 ∧
        idx / 2 / 2 ^ t < row.length := by
      intro t ht
      obtain ⟨r, h1, h2, h3⟩ := hall (t + 1) (by omega)
      have e : i + (t + 1) = i + 1 + t := by omega
      rw [e] at h1
      rw [pow_succ, Nat.mul_comm, ← Nat.div_div_eq_div_mul] at h3
      exact ⟨r, h1, h2, h3⟩
    rw [proofLoop, elemAt_natCast _ _ hrowlt, ok_bind, hrowget, hmod, hdiv, hnext]
    by_cases hodd : idx % 2 = 1
    · have hc : ((idx % 2 : Nat) : Int) = 1 := by rw [hodd]; rfl
      have hsub : (idx : Int) - 1 = ((idx - 1 : Nat) : Int) := by omega
      rw [if_pos hc, hsub, elemAt_natCast row (idx - 1) (by omega), ok_bind]
      exact ih (i + 1) (idx / 2) _ hrest
    · have hc : ¬ ((idx % 2 : Nat) : Int) = 1 := by omega
      have hadd : (idx : Int) + 1 = ((idx + 1 : Nat) : Int) := by push_cast; rfl
      rw [if_neg hc, hadd, elemAt_natCast row (idx + 1) (by omega), ok_bind]
      exact ih (i + 1) (idx / 2) _ hrest

/-- C17. For a non-empty list of `n` blocks with `n + n % 2` a power of two,
every row of the tree built by `NewTree` other than the root row has even
length, and for every digest present in row 0, with first index `i0`, the
sibling index computed at every level (`i - 1` for odd `i`, `i + 1` for even
`i`, with `i = i0 / 2 ^ k`) lies within its row, and `GetProofs` returns a
proof and no error. -/
theorem C17_index_safety_balanced (E : Env) (blocks : List Data) (hne : blocks ≠ [])
    (K : Nat) (hpow : blocks.length + blocks.length % 2 = 2 ^ K) :
    ∃ tree row0, NewTree E blocks = .ok tree ∧ tree.rows[0]? = some row0 ∧
      (∀ (r : Nat) (row : List Node), r + 1 < tree.rows.length →
        tree.rows[r]? = some row → row.length % 2 = 0) ∧
      ∀ h : Hash, (∃ node ∈ row0, node.Hash = h) →
        ∃ i0, IsFirstIndex row0 h i0 ∧
          (∀ (k : Nat) (row : List Node), k + 1 < tree.rows.length →
            tree.rows[k]? = some row →
            ((i0 / 2 ^ k) % 2 = 1 → i0 / 2 ^ k - 1 < row.length) ∧
            ((i0 / 2 ^ k) % 2 = 0 → i0 / 2 ^ k + 1 < row.length)) ∧
          ∃ proofs, GetProofs tree h = .ok (some proofs, none) := by
  obtain ⟨root, hb, _⟩ := NewTree_eq E blocks hne
  have hrow0 := NewTree_row0 E blocks hne _ hb
  rw [hpow, ceilLog2_pow] at hb hrow0
  have hrowsLen : (levels E (K + 1) (leafRow E blocks)).length = K + 1 := levels_length E _ _
  have hb2 : NewTree E blocks = .ok
      { root := root, rows := levels E (K + 1) (leafRow E blocks) } := hb
  have hrowLen : ∀ (r : Nat) (row : List Node), r < K →
      (levels E (K + 1) (leafRow E blocks))[r]? = some row →
      row.length = 2 ^ (K - r) := by
    intro r row hr hrow
    rw [levels_getElem? E _ _ r (by omega)] at hrow
    rw [← Option.some.inj hrow, iterate_pairUp_length, leafRow_length E blocks hne, hpow,
      iterate_halfUp_pow r K (by omega)]
  have hpowEven : ∀ r, r < K → 2 ^ (K - r) % 2 = 0 := by
    intro r hr
    obtain ⟨j, hj⟩ : ∃ j, K - r = j + 1 := ⟨K - r - 1, by omega⟩
    rw [hj, pow_succ]
    omega
  have hidxlt : ∀ (i0 r : Nat), i0 < 2 ^ K → r < K → i0 / 2 ^ r < 2 ^ (K - r) := by
    intro i0 r hi hr
    rw [Nat.div_lt_iff_lt_mul (Nat.two_pow_pos r), ← pow_add]
    have : K - r + r = K := by omega
    rw [this]
    exact hi
  refine ⟨_, _, hb2, hrow0, ?_, ?_⟩
  · intro r row hr hrow
    have hr2 : r + 1 < (levels E (K + 1) (leafRow E blocks)).length := hr
    rw [hrowsLen] at hr2
    rw [hrowLen r row (by omega) hrow]
    exact hpowEven r (by omega)
  · intro h hpres
    obtain ⟨i0, hfirst⟩ := exists_firstIndex h _ hpres
    have hi0 : i0 < 2 ^ K := by
      obtain ⟨⟨node, hn, _⟩, _⟩ := hfirst
      have := (List.getElem?_eq_some_iff.1 hn).1
      rwa [leafRow_length E blocks hne, hpow] at this
    refine ⟨i0, hfirst, ?_, ?_⟩
    · intro k row hk hrow
      have hk2 : k + 1 < (levels E (K + 1) (leafRow E blocks)).length := hk
      rw [hrowsLen] at hk2
      have hlen := hrowLen k row (by omega) hrow
      have h1 := hpowEven k (by omega)
      have h2 := hidxlt i0 k hi0 (by omega)
      rw [hlen]
      have key : ∀ idx len : Nat, len % 2 = 0 → idx < len →
          (idx % 2 = 1 → idx - 1 < len) ∧ (idx % 2 = 0 → idx + 1 < len) := by
        intro idx len g1 g2
        constructor <;> intro _ <;> omega
      exact key _ _ h1 h2
    · unfold GetProofs
      rw [getLeafIndex_first _ _ h i0 hrow0 hfirst, ok_bind, if_neg (neg_one_ne_natCast i0)]
      have hloop := proofLoop_even
        { root := root, rows := levels E (K + 1) (leafRow E blocks) } K 0 i0 [] (by
          intro t ht
          obtain ⟨row, hrow⟩ : ∃ row, (levels E (K + 1) (leafRow E blocks))[0 + t]? = some row :=
            ⟨_, levels_getElem? E _ _ (0 + t) (by omega)⟩
          have hrow2 := hrow
          rw [Nat.zero_add] at hrow2
          have hlen := hrowLen t row ht hrow2
          exact ⟨row, hrow, by rw [hlen]; exact hpowEven t ht, by
            rw [hlen]; exact hidxlt i0 t hi0 ht⟩)
      obtain ⟨proofs, hproofs⟩ := hloop
      have hK : (levels E (K + 1) (leafRow E blocks)).length - 1 = K := by
        rw [hrowsLen, Nat.add_sub_cancel]
      refine ⟨proofs, ?_⟩
      show (proofLoop _ ((levels E (K + 1) (leafRow E blocks)).length - 1) 0 (i0 : Int) [] >>=
        fun ps => pure (some ps, none)) = _
      rw [hK]
      have hproofs2 : proofLoop { root := root, rows := levels E (K + 1) (leafRow E blocks) }
          K 0 (i0 : Int) [] = .ok proofs := hproofs
      rw [hproofs2, ok_bind]
      rfl

/-- C17 on the three sample blocks, where `n + n % 2 = 4`: rows 0 and 1 have
even length and `GetProofs` on the digest of the third block, at index 2,
returns the fourth leaf on the right and then the first node of row 1 on the
left. -/
theorem C17_index_safety_balanced_witness :
    NewTree sampleEnv threeBlocks = .ok sampleTree3 ∧
      (∃ row0 row1, sampleTree3.rows[0]? = some row0 ∧ sampleTree3.rows[1]? = some row1 ∧
        row0.length % 2 = 0 ∧ row1.length % 2 = 0) ∧
      (∃ proofs, GetProofs sampleTree3 (sampleDigest 3) = .ok (some proofs, none)) ∧
      GetProofs sampleTree3 (sampleDigest 3) = .ok (some
        [{ direction := Right, hash := sampleDigest 3 },
         { direction := Left, hash := MergeHash sampleEnv (sampleDigest 1) (sampleDigest 2) }],
        none) := by
  obtain ⟨tree, row0, hb, hrow0, heven, hall⟩ :=
    C17_index_safety_balanced sampleEnv threeBlocks (by decide) 2 rfl
  have e := sample_row0 tree row0 hb hrow0
  have et := eq_sampleTree3 tree hb
  subst e et
  obtain ⟨i0, _, _, hget⟩ := hall (sampleDigest 3) ⟨sampleLeaf 3, by decide, rfl⟩
  exact ⟨hb, ⟨_, _, hrow0, rfl, heven 0 _ (by decide) hrow0, heven 1 _ (by decide) rfl⟩,
    hget, rfl⟩

/-! ## Tampering with a sibling digest -/

theorem replayPairs_append (E : Env) :
    ∀ (pre rest : List Proof) (h : Hash),
      replayPairs E h (pre ++ rest) =
        replayPairs E h pre ++ replayPairs E (pre.foldl (verifyStep E) h) rest
  | [], _, _ => rfl
  | p :: pre, rest, h => by
    have ih := replayPairs_append E pre rest (verifyStep E h p)
    show _ :: replayPairs E (verifyStep E h p) (pre ++ rest) = _
    rw [ih]
    rfl

theorem verifyStep_eq_merge (E : Env) (h : Hash) (p : Proof) :
    verifyStep E h p =
      MergeHash E (if p.direction = Left then (p.hash, h) else (h, p.hash)).1
        (if p.direction = Left then (p.hash, h) else (h, p.hash)).2 := by
  unfold verifyStep
  by_cases hd : p.direction = Left
  · simp only [if_pos hd]
  · simp only [if_neg hd]

theorem replay_diverges (E : Env) (pairs : List (Hash × Hash)) (hfree : MergeCollisionFree E pairs) :
    ∀ (post : List Proof) (y z : Hash), y ≠ z →
      (∀ p ∈ replayPairs E y post, p ∈ pairs) → (∀ p ∈ replayPairs E z post, p ∈ pairs) →
      post.foldl (verifyStep E) y ≠ post.foldl (verifyStep E) z
  | [], y, z, hne, _, _ => hne
  | p :: post, y, z, hne, hy, hz => by
    rw [List.foldl_cons, List.foldl_cons]
    apply replay_diverges E pairs hfree post
    · intro hcontra
      rw [verifyStep_eq_merge E y p, verifyStep_eq_merge E z p] at hcontra
      have hmy := hy _ (List.mem_cons_self _ _)
      have hmz := hz _ (List.mem_cons_self _ _)
      have heq := hfree _ hmy _ hmz hcontra
      by_cases hd : p.direction = Left
      · simp only [if_pos hd] at heq
        exact hne (Prod.mk.inj heq).2
      · simp only [if_neg hd] at heq
        exact hne (Prod.mk.inj heq).1
    · intro q hq
      exact hy q (List.mem_cons_of_mem _ hq)
    · intro q hq
      exact hz q (List.mem_cons_of_mem _ hq)

theorem tamper_diverges (E : Env) (h : Hash) (pre post : List Proof) (d : Direction)
    (s t : Hash) (hst : s ≠ t)
    (hfree : MergeCollisionFree E
      (replayPairs E h (pre ++ { direction := d, hash := s } :: post) ++
        replayPairs E h (pre ++ { direction := d, hash := t } :: post))) :
    (pre ++ { direction := d, hash := s } :: post).foldl (verifyStep E) h ≠
      (pre ++ { direction := d, hash := t } :: post).foldl (verifyStep E) h := by
  rw [List.foldl_append, List.foldl_append, List.foldl_cons, List.foldl_cons]
  rw [replayPairs_append, replayPairs_append] at hfree
  have hin1 : ∀ q ∈ replayPairs E (pre.foldl (verifyStep E) h)
      ({ direction := d, hash := s } :: post),
      q ∈ replayPairs E h pre ++ replayPairs E (pre.foldl (verifyStep E) h)
          ({ direction := d, hash := s } :: post) ++
        (replayPairs E h pre ++ replayPairs E (pre.foldl (verifyStep E) h)
          ({ direction := d, hash := t } :: post)) := by
    intro q hq
    simp only [List.mem_append]
    exact Or.inl (Or.inr hq)
  have hin2 : ∀ q ∈ replayPairs E (pre.foldl (verifyStep E) h)
      ({ direction := d, hash := t } :: post),
      q ∈ replayPairs E h pre ++ replayPairs E (pre.foldl (verifyStep E) h)
          ({ direction := d, hash := s } :: post) ++
        (replayPairs E h pre ++ replayPairs E (pre.foldl (verifyStep E) h)
          ({ direction := d, hash := t } :: post)) := by
    intro q hq
    simp only [List.mem_append]
    exact Or.inr (Or.inr hq)
  apply replay_diverges E _ hfree post
  · intro hcontra
    rw [verifyStep_eq_merge E _ { direction := d, hash := s },
      verifyStep_eq_merge E _ { direction := d, hash := t }] at hcontra
    have heq := hfree _ (hin1 _ (List.mem_cons_self _ _)) _ (hin2 _ (List.mem_cons_self _ _))
      hcontra
    by_cases hd : d = Left
    · simp only [if_pos hd] at heq
      exact hst (Prod.mk.inj heq).1
    · simp only [if_neg hd] at heq
      exact hst (Prod.mk.inj heq).2
  · intro q hq
    exact hin1 q (List.mem_cons_of_mem _ hq)
  · intro q hq
    exact hin2 q (List.mem_cons_of_mem _ hq)

/-- C12. For a tree built by `NewTree` from a non-empty list, a digest `h`
present in row 0 and a proof accepted by `VerifyProofs` for `h`: the proof with
the sibling digest of one entry replaced by a different digest, everything
else unchanged, is rejected, provided `MergeHash` has no collision among the
digest pairs combined during the two replays. -/
theorem C12_tamper_sensitivity (E : Env) (blocks : List Data) (hne : blocks ≠ []) :
    ∃ tree row0, NewTree E blocks = .ok tree ∧ tree.rows[0]? = some row0 ∧
      ∀ (h : Hash) (pre post : List Proof) (d : Direction) (s t : Hash),
        (∃ node ∈ row0, node.Hash = h) → s ≠ t →
        VerifyProofs E tree (pre ++ { direction := d, hash := s } :: post) h = .ok true →
        MergeCollisionFree E
          (replayPairs E h (pre ++ { direction := d, hash := s } :: post) ++
            replayPairs E h (pre ++ { direction := d, hash := t } :: post)) →
        VerifyProofs E tree (pre ++ { direction := d, hash := t } :: post) h = .ok false := by
  obtain ⟨root, hb, _⟩ := NewTree_eq E blocks hne
  have hrow0 := NewTree_row0 E blocks hne _ hb
  refine ⟨_, _, hb, hrow0, ?_⟩
  intro h pre post d s t hpres hst hver hfree
  obtain ⟨k, hk⟩ := exists_firstIndex h _ hpres
  have hdiff := tamper_diverges E h pre post d s t hst hfree
  unfold VerifyProofs at hver ⊢
  rw [getLeafIndex_first _ _ h k hrow0 hk, ok_bind, if_neg (neg_one_ne_natCast k)] at hver ⊢
  have hacc : (pre ++ { direction := d, hash := s } :: post).foldl (verifyStep E) h =
      root.Hash := by
    have hv : (Except.ok (decide ((pre ++ { direction := d, hash := s } :: post).foldl
        (verifyStep E) h = root.Hash)) : Except Panic Bool) = Except.ok true := hver
    have hv2 : decide ((pre ++ { direction := d, hash := s } :: post).foldl
        (verifyStep E) h = root.Hash) = true := Except.ok.inj hv
    exact of_decide_eq_true hv2
  have hrej : ¬ ((pre ++ { direction := d, hash := t } :: post).foldl (verifyStep E) h =
      root.Hash) := by
    intro hcontra
    exact hdiff (hacc.trans hcontra.symm)
  exact congrArg Except.ok (decide_eq_false hrej)

/-- C12 on the three sample blocks: the proof of the first block with its first
sibling digest replaced by the digest of another block is rejected. -/
theorem C12_tamper_sensitivity_witness :
    NewTree sampleEnv threeBlocks = .ok sampleTree3 ∧
      VerifyProofs sampleEnv sampleTree3 sampleProof3 (sampleDigest 1) = .ok true ∧
      sampleDigest 2 ≠ sampleDigest 9 ∧
      VerifyProofs sampleEnv sampleTree3
        [{ direction := Right, hash := sampleDigest 9 },
         { direction := Right, hash := MergeHash sampleEnv (sampleDigest 3) (sampleDigest 3) }]
        (sampleDigest 1) = .ok false := by
  obtain ⟨tree, row0, hb, hrow0, hall⟩ := C12_tamper_sensitivity sampleEnv threeBlocks (by decide)
  have e := sample_row0 tree row0 hb hrow0
  have et := eq_sampleTree3 tree hb
  subst e et
  have hne : sampleDigest 2 ≠ sampleDigest 9 := by decide
  have hver : VerifyProofs sampleEnv sampleTree3 sampleProof3 (sampleDigest 1) = .ok true := by
    unfold VerifyProofs
    rw [getLeafIndex_first sampleTree3 _ (sampleDigest 1) 0 rfl
      (isFirstIndex_zero (sampleLeaf 1) _), ok_bind, if_neg (neg_one_ne_natCast 0)]
    exact congrArg Except.ok (decide_eq_true (by decide!))
  have hfree : MergeCollisionFree sampleEnv
      (replayPairs sampleEnv (sampleDigest 1)
          ([] ++ { direction := Right, hash := sampleDigest 2 } ::
            [{ direction := Right,
               hash := MergeHash sampleEnv (sampleDigest 3) (sampleDigest 3) }]) ++
        replayPairs sampleEnv (sampleDigest 1)
          ([] ++ { direction := Right, hash := sampleDigest 9 } ::
            [{ direction := Right,
               hash := MergeHash sampleEnv (sampleDigest 3) (sampleDigest 3) }])) := by
    unfold MergeCollisionFree
    decide!
  exact ⟨hb, hver, hne,
    hall (sampleDigest 1) [] _ Right (sampleDigest 2) (sampleDigest 9)
      ⟨sampleLeaf 1, by decide, rfl⟩ hne hver hfree⟩

/-! ## Order sensitivity -/

theorem NewLeaf_wellHashed (E : Env) (d : Data) :
    (NewLeaf E d).Hash = HashData E (NewLeaf E d).input :=
  rfl

theorem NewBranch_wellHashed (E : Env) (l r : Node) :
    (NewBranch E l r).Hash = HashData E (NewBranch E l r).input :=
  MergeHash_eq E l.Hash r.Hash

theorem leafRow_wellHashed (E : Env) (ds : List Data) :
    ∀ node ∈ leafRow E ds, node.Hash = HashData E node.input := by
  intro node hnode
  unfold leafRow at hnode
  rcases List.mem_append.1 hnode with h1 | h2
  · obtain ⟨d, _, hd⟩ := List.mem_map.1 h1
    rw [← hd]
    rfl
  · cases hl : ds.getLast? with
    | none =>
      rw [hl] at h2
      simp at h2
    | some d =>
      rw [hl] at h2
      by_cases hodd : ds.length % 2 = 1
      · simp only [if_pos hodd, List.mem_singleton] at h2
        rw [h2]
        rfl
      · simp only [if_neg hodd, List.not_mem_nil] at h2

theorem pairUp_wellHashed (E : Env) :
    ∀ (row : List Node), ∀ node ∈ pairUp E row, node.Hash = HashData E node.input
  | [], node, h => by simp [pairUp] at h
  | [x], node, h => by
    simp only [pairUp, List.mem_singleton] at h
    rw [h]
    exact NewBranch_wellHashed E x x
  | x :: y :: rest, node, h => by
    simp only [pairUp, List.mem_cons] at h
    rcases h with h | h
    · rw [h]
      exact NewBranch_wellHashed E x y
    · exact pairUp_wellHashed E rest node h

theorem iterate_pairUp_wellHashed (E : Env) (ds : List Data) (r : Nat) :
    ∀ node ∈ (pairUp E)^[r] (leafRow E ds), node.Hash = HashData E node.input := by
  cases r with
  | zero => exact leafRow_wellHashed E ds
  | succ r =>
    rw [Function.iterate_succ_apply']
    exact pairUp_wellHashed E _

theorem mem_hashedInputs (tree : MerkleTree) (r : Nat) (row : List Node) (node : Node)
    (hrow : tree.rows[r]? = some row) (hnode : node ∈ row) :
    node.input ∈ hashedInputs tree := by
  unfold hashedInputs
  exact List.mem_flatMap.2 ⟨row, List.getElem?_mem hrow, List.mem_map.2 ⟨node, hnode, rfl⟩⟩

theorem branch_input_ne_left (E : Env) (l1 r1 l2 r2 : Node) (h : l1.Hash ≠ l2.Hash) :
    (NewBranch E l1 r1).input ≠ (NewBranch E l2 r2).input := by
  intro hcontra
  have h1 : l1.Hash.val ++ r1.Hash.val = l2.Hash.val ++ r2.Hash.val := hcontra
  exact h (Subtype.ext (List.append_inj_left h1 (by rw [l1.Hash.property, l2.Hash.property])))

theorem branch_input_ne_right (E : Env) (l1 r1 l2 r2 : Node) (h : r1.Hash ≠ r2.Hash) :
    (NewBranch E l1 r1).input ≠ (NewBranch E l2 r2).input := by
  intro hcontra
  have h1 : l1.Hash.val ++ r1.Hash.val = l2.Hash.val ++ r2.Hash.val := hcontra
  exact h (Subtype.ext (List.append_inj_right h1 (by rw [l1.Hash.property, l2.Hash.property])))

theorem pairUp_diff (E : Env) :
    ∀ (rowA rowB : List Node) (p : Nat) (a b : Node), rowA.length = rowB.length →
      rowA[p]? = some a → rowB[p]? = some b → a.Hash ≠ b.Hash →
      ∃ a2 b2, (pairUp E rowA)[p / 2]? = some a2 ∧ (pairUp E rowB)[p / 2]? = some b2 ∧
        a2.input ≠ b2.input
  | [], _, p, a, b, _, ha, _, _ => by simp at ha
  | _ :: _, [], p, a, b, _, _, hb, _ => by simp at hb
  | [x], [y], p, a, b, _, ha, hb, hne => by
    cases p with
    | zero =>
      simp only [List.getElem?_cons_zero, Option.some.injEq] at ha hb
      subst ha hb
      exact ⟨NewBranch E x x, NewBranch E y y, by simp [pairUp], by simp [pairUp],
        branch_input_ne_left E x x y y hne⟩
    | succ p => simp at ha
  | [x], _ :: _ :: _, p, a, b, hlen, _, _, _ => by simp at hlen
  | _ :: _ :: _, [y], p, a, b, hlen, _, _, _ => by simp at hlen
  | x1 :: x2 :: ra, y1 :: y2 :: rb, p, a, b, hlen, ha, hb, hne => by
    cases p with
    | zero =>
      simp only [List.getElem?_cons_zero, Option.some.injEq] at ha hb
      subst ha hb
      exact ⟨NewBranch E x1 x2, NewBranch E y1 y2, by simp [pairUp], by simp [pairUp],
        branch_input_ne_left E x1 x2 y1 y2 hne⟩
    | succ p =>
      cases p with
      | zero =>
        simp only [Nat.zero_add, List.getElem?_cons_succ, List.getElem?_cons_zero,
          Option.some.injEq] at ha hb
        subst ha hb
        exact ⟨NewBranch E x1 x2, NewBranch E y1 y2, by simp [pairUp], by simp [pairUp],
          branch_input_ne_right E x1 x2 y1 y2 hne⟩
      | succ p =>
        simp only [List.getElem?_cons_succ] at ha hb
        have hlen2 : ra.length = rb.length := by simpa using hlen
        obtain ⟨a2, b2, h1, h2, h3⟩ := pairUp_diff E ra rb p a b hlen2 ha hb hne
        have e : (p + 1 + 1) / 2 = p / 2 + 1 := by omega
        refine ⟨a2, b2, ?_, ?_, h3⟩
        · rw [e]
          simpa [pairUp] using h1
        · rw [e]
          simpa [pairUp] using h2

theorem leafRow_getElem? (E : Env) (ds : List Data) (i : Nat) (hi : i < ds.length) :
    (leafRow E ds)[i]? = some (NewLeaf E ds[i]) := by
  unfold leafRow
  rw [List.getElem?_append_left (by simpa using hi), List.getElem?_map,
    List.getElem?_eq_getElem hi]
  rfl

theorem swapBlocks_length (blocks : List Data) (i j : Nat) :
    (swapBlocks blocks i j).length = blocks.length := by
  unfold swapBlocks
  split
  · simp
  · rfl

theorem swapBlocks_getElem (blocks : List Data) (i j : Nat) (hi : i < blocks.length)
    (hj : j < blocks.length) (hij : i ≠ j) (hi2 : i < (swapBlocks blocks i j).length) :
    (swapBlocks blocks i j)[i] = blocks[j] := by
  have e : swapBlocks blocks i j = (blocks.set i blocks[j]).set j blocks[i] := by
    unfold swapBlocks
    rw [List.getElem?_eq_getElem hi, List.getElem?_eq_getElem hj]
  have key : ((blocks.set i blocks[j]).set j blocks[i])[i]? = some blocks[j] := by
    rw [List.getElem?_set_ne (Ne.symm hij), List.getElem?_set_self hi]
  have h2 : (swapBlocks blocks i j)[i]? = some blocks[j] := by
    rw [e]
    exact key
  rw [List.getElem?_eq_getElem hi2] at h2
  exact Option.some.inj h2

theorem singleton_getElem? {α : Type} (x a : α) (k : Nat) (h : [x][k]? = some a) : a = x := by
  cases k with
  | zero => exact (Option.some.inj h).symm
  | succ k => simp at h

theorem roots_differ (E : Env) (dsA dsB : List Data) (hneA : dsA ≠ []) (hneB : dsB ≠ [])
    (hlen : dsB.length = dsA.length) (i : Nat) (hiA : i < dsA.length) (hiB : i < dsB.length)
    (hdiff : dsA[i] ≠ dsB[i]) (treeA treeB : MerkleTree)
    (hA : NewTree E dsA = .ok treeA) (hB : NewTree E dsB = .ok treeB)
    (hinj : HashInjectiveOn E (hashedInputs treeA ++ hashedInputs treeB)) :
    treeA.root.Hash ≠ treeB.root.Hash := by
  obtain ⟨hrowsA, hrootA⟩ := NewTree_inv E dsA hneA treeA hA
  obtain ⟨hrowsB, hrootB⟩ := NewTree_inv E dsB hneB treeB hB
  rw [hlen] at hrowsB hrootB
  generalize hc : ceilLog2 (dsA.length + dsA.length % 2) = c at hrowsA hrootA hrowsB hrootB
  have hrowA : ∀ r, r ≤ c → treeA.rows[r]? = some ((pairUp E)^[r] (leafRow E dsA)) := by
    intro r hr
    rw [hrowsA]
    exact levels_getElem? E _ _ r (by omega)
  have hrowB : ∀ r, r ≤ c → treeB.rows[r]? = some ((pairUp E)^[r] (leafRow E dsB)) := by
    intro r hr
    rw [hrowsB]
    exact levels_getElem? E _ _ r (by omega)
  have hsep : ∀ (r : Nat) (a b : Node), r ≤ c → a ∈ (pairUp E)^[r] (leafRow E dsA) →
      b ∈ (pairUp E)^[r] (leafRow E dsB) → a.input ≠ b.input → a.Hash ≠ b.Hash := by
    intro r a b hr ha hb hab hcontra
    rw [iterate_pairUp_wellHashed E dsA r a ha, iterate_pairUp_wellHashed E dsB r b hb] at hcontra
    have h1 : a.input ∈ hashedInputs treeA ++ hashedInputs treeB :=
      List.mem_append.2 (Or.inl (mem_hashedInputs treeA r _ a (hrowA r hr) ha))
    have h2 : b.input ∈ hashedInputs treeA ++ hashedInputs treeB :=
      List.mem_append.2 (Or.inr (mem_hashedInputs treeB r _ b (hrowB r hr) hb))
    exact hab (hinj _ h1 _ h2 hcontra)
  have hind : ∀ r, r ≤ c → ∃ a b, ((pairUp E)^[r] (leafRow E dsA))[i / 2 ^ r]? = some a ∧
      ((pairUp E)^[r] (leafRow E dsB))[i / 2 ^ r]? = some b ∧ a.Hash ≠ b.Hash := by
    intro r
    induction r with
    | zero =>
      intro hr
      have ha := leafRow_getElem? E dsA i hiA
      have hb := leafRow_getElem? E dsB i hiB
      refine ⟨_, _, by simpa using ha, by simpa using hb, ?_⟩
      exact hsep 0 _ _ hr (List.getElem?_mem ha) (List.getElem?_mem hb) hdiff
    | succ r ih =>
      intro hr
      obtain ⟨a, b, ha, hb, hab⟩ := ih (by omega)
      have hlenrows : ((pairUp E)^[r] (leafRow E dsA)).length =
          ((pairUp E)^[r] (leafRow E dsB)).length := by
        rw [iterate_pairUp_length, iterate_pairUp_length, leafRow_length E dsA hneA,
          leafRow_length E dsB hneB, hlen]
      obtain ⟨a2, b2, ha2, hb2, hin⟩ := pairUp_diff E _ _ _ a b hlenrows ha hb hab
      have hdiv : i / 2 ^ (r + 1) = i / 2 ^ r / 2 := by
        rw [Nat.div_div_eq_div_mul, pow_succ]
      rw [Function.iterate_succ_apply', Function.iterate_succ_apply', hdiv]
      refine ⟨a2, b2, ha2, hb2, ?_⟩
      apply hsep (r + 1) a2 b2 hr _ _ hin
      · rw [Function.iterate_succ_apply']
        exact List.getElem?_mem ha2
      · rw [Function.iterate_succ_apply']
        exact List.getElem?_mem hb2
  obtain ⟨a, b, ha, hb, hab⟩ := hind c le_rfl
  rw [hrootA] at ha
  rw [hrootB] at hb
  rw [singleton_getElem? _ _ _ ha, singleton_getElem? _ _ _ hb] at hab
  exact hab

/-- C11. For a list of blocks and two positions holding different blocks, the
root digest of `NewTree` of the list differs from the root digest of `NewTree`
of the list with the two positions exchanged, provided `HashData` has no
collision among the inputs hashed while building the two trees. -/
theorem C11_order_sensitivity (E : Env) (blocks : List Data) (i j : Nat)
    (hi : i < blocks.length) (hj : j < blocks.length) (hdiff : blocks[i] ≠ blocks[j]) :
    ∃ treeA treeB, NewTree E blocks = .ok treeA ∧
      NewTree E (swapBlocks blocks i j) = .ok treeB ∧
      (HashInjectiveOn E (hashedInputs treeA ++ hashedInputs treeB) →
        treeA.root.Hash ≠ treeB.root.Hash) := by
  have hne : blocks ≠ [] := by
    intro h
    rw [h] at hi
    simp at hi
  have hlen := swapBlocks_length blocks i j
  have hneB : swapBlocks blocks i j ≠ [] := by
    intro h
    rw [h] at hlen
    rw [← hlen] at hi
    simp at hi
  have hij : i ≠ j := by
    intro h
    subst h
    exact hdiff rfl
  obtain ⟨rootA, hA, _⟩ := NewTree_eq E blocks hne
  obtain ⟨rootB, hB, _⟩ := NewTree_eq E (swapBlocks blocks i j) hneB
  refine ⟨_, _, hA, hB, ?_⟩
  intro hinj
  have hiB : i < (swapBlocks blocks i j).length := by rw [hlen]; exact hi
  apply roots_differ E blocks (swapBlocks blocks i j) hne hneB hlen i hi hiB _ _ _ hA hB hinj
  rw [swapBlocks_getElem blocks i j hi hj hij hiB]
  exact hdiff

/-- C11 on the three sample blocks with the first two exchanged: `HashData` has
no collision among the inputs hashed for the two trees, and the root digests
differ. -/
theorem C11_order_sensitivity_witness :
    NewTree sampleEnv threeBlocks = .ok sampleTree3 ∧
      NewTree sampleEnv [[2], [1], [3]] = .ok (treeOfThree sampleEnv [2] [1] [3]) ∧
      HashInjectiveOn sampleEnv
        (hashedInputs sampleTree3 ++ hashedInputs (treeOfThree sampleEnv [2] [1] [3])) ∧
      sampleTree3.root.Hash ≠ (treeOfThree sampleEnv [2] [1] [3]).root.Hash := by
  obtain ⟨treeA, treeB, hA, hB, himp⟩ :=
    C11_order_sensitivity sampleEnv threeBlocks 0 1 (by decide) (by decide) (by decide)
  have eA := eq_sampleTree3 treeA hA
  have hB2 : NewTree sampleEnv [[2], [1], [3]] = .ok treeB := hB
  have eB : treeB = treeOfThree sampleEnv [2] [1] [3] := by
    rw [NewTree_three sampleEnv [2] [1] [3]] at hB2
    exact (Except.ok.inj hB2).symm
  subst eA eB
  have hinj : HashInjectiveOn sampleEnv
      (hashedInputs sampleTree3 ++ hashedInputs (treeOfThree sampleEnv [2] [1] [3])) := by
    unfold HashInjectiveOn
    decide!
  exact ⟨hA, hB2, hinj, himp hinj⟩

end Merkletree
